import Mathlib

/-!
# WebDGS core — verification of spec claims against a shallow embedding

This file embeds the GPU kernels and host utilities of the WebDGS 3D-Gaussian-
splatting trainer (WGSL compute shaders plus TypeScript host code) as Lean
definitions and settles the frozen specification claims about them.

Modelling conventions:

* u32 machine words are `ℕ` with explicit `% 2^32` at every operation where
  wrap-around can occur (`U32.M` below).
* WGSL `f32` scalars are modelled over an arbitrary `LinearOrderedField F`.
  The transcendental / packing builtins (`exp`, `log`, `sqrt`, `inverseSqrt`,
  `pack2x16float`, `unpack2x16float`) have no exact representation in a field,
  so they are passed in as an explicit record of operations (`WgslOps`).
  Theorems that need actual facts about `exp` instantiate `F := ℝ` with
  `Real.exp`; purely structural theorems hold for every instantiation, which
  is strictly stronger than fixing one.
* A data-parallel kernel dispatch over indices `0 ≤ idx < n` whose writes are
  pairwise disjoint is modelled either pointwise (one function from index to
  written value) or as a left fold over `List.range n`; barriers inside a
  workgroup split a kernel into phases, each phase modelled as one total map
  of the shared state.
-/

namespace U32

/-- Modulus of u32 arithmetic. -/
def M : ℕ := 2 ^ 32

theorem M_pos : 0 < M := by decide

end U32

namespace ListUtil

/-- Exclusive prefix scan over naturals with a starting offset accumulator. -/
def scanExclFrom (b : ℕ) : List ℕ → List ℕ
  | [] => []
  | c :: cs => b :: scanExclFrom (b + c) cs

/-- Exclusive prefix scan over naturals (the mathematical specification that
the GPU scan pipeline of `prefix.ts` is proved to compute, and the host-side
meaning of the `out_offsets` buffer consumed by the densify/prune passes). -/
def scanExcl (l : List ℕ) : List ℕ := scanExclFrom 0 l

@[simp] theorem scanExclFrom_nil (b : ℕ) : scanExclFrom b [] = [] := rfl

@[simp] theorem scanExclFrom_cons (b c : ℕ) (cs : List ℕ) :
    scanExclFrom b (c :: cs) = b :: scanExclFrom (b + c) cs := rfl

@[simp] theorem scanExclFrom_length (l : List ℕ) :
    ∀ b, (scanExclFrom b l).length = l.length := by
  induction l with
  | nil => intro b; rfl
  | cons c cs ih => intro b; simp [scanExclFrom, ih]

@[simp] theorem scanExcl_length (l : List ℕ) : (scanExcl l).length = l.length :=
  scanExclFrom_length l 0

theorem scanExclFrom_getD (l : List ℕ) : ∀ (b i : ℕ), i < l.length →
    (scanExclFrom b l).getD i 0 = b + (l.take i).sum := by
  induction l with
  | nil => intro b i hi; simp at hi
  | cons c cs ih =>
    intro b i hi
    cases i with
    | zero => simp
    | succ j =>
      have hj : j < cs.length := by simpa using hi
      simp only [scanExclFrom_cons, List.getD_cons_succ, ih (b + c) j hj,
        List.take_succ_cons, List.sum_cons]
      omega

theorem scanExcl_getD (l : List ℕ) (i : ℕ) (hi : i < l.length) :
    (scanExcl l).getD i 0 = (l.take i).sum := by
  simpa [scanExcl] using scanExclFrom_getD l 0 i hi

/-- Sum of a list as "sum of first `n-1` elements plus last element". -/
theorem take_pred_sum_add_last (l : List ℕ) (h : l ≠ []) :
    (l.take (l.length - 1)).sum + l.getD (l.length - 1) 0 = l.sum := by
  induction l with
  | nil => simp at h
  | cons c cs ih =>
    cases cs with
    | nil => simp
    | cons d ds =>
      have h2 := ih (by simp)
      simp only [List.length_cons, Nat.add_sub_cancel, List.sum_cons, List.take_succ_cons,
        List.getD_cons_succ] at h2 ⊢
      omega

end ListUtil

/-!
## Densify/prune capacity clamp (`densify-prune-cap.wgsl`) and total
(`densify-prune-total.wgsl`)

The cap pass runs one thread per input Gaussian.  Thread `idx` reads the
tentative exclusive-scan offset `out_offsets[idx]` and its decided count
`out_counts[idx]`, and clamps them so that no emitted slot index can reach
`max_out_points`.
-/

namespace DensifyPrune

/-- Per-thread body of `cap_main` acting on `out_counts[idx]`
(`densify-prune-cap.wgsl`, lines 23-49).  Arguments are
`max_out = info.max_out_points`, `off = out_offsets[idx]`, `c = out_counts[idx]`. -/
def capCount (maxOut off c : ℕ) : ℕ :=
  if maxOut = 0 then 0
  else if off ≥ maxOut then 0
  else if c = 2 ∧ off = maxOut - 1 then 1
  else c

/-- Per-thread body of `cap_main` acting on `out_actions[idx]`; `a` is the
incoming action (0 keep, 1 clone, 2 split, 3 prune). -/
def capAction (maxOut off c a : ℕ) : ℕ :=
  if maxOut = 0 then 3
  else if off ≥ maxOut then 3
  else if c = 2 ∧ off = maxOut - 1 then 0
  else a

/-- Whole `cap_main` dispatch over `num_points = counts.length` threads: the
counts buffer after the pass.  Offsets are read from the scan output of the
decided counts. -/
def capPassCounts (maxOut : ℕ) (counts : List ℕ) : List ℕ :=
  List.zipWith (capCount maxOut) (ListUtil.scanExcl counts) counts

/-- Whole `cap_main` dispatch: the actions buffer after the pass. -/
def capPassActions (maxOut : ℕ) (counts actions : List ℕ) : List ℕ :=
  List.zipWith (fun oc a => capAction maxOut oc.1 oc.2 a)
    (List.zip (ListUtil.scanExcl counts) counts) actions

/-- Body of `total_main` (`densify-prune-total.wgsl`, lines 22-34): reads the
exclusive scan and the counts at index `n-1` and adds them in u32 arithmetic. -/
def totalMain (scanned counts : List ℕ) : ℕ :=
  if counts.length = 0 then 0
  else (scanned.getD (counts.length - 1) 0 + counts.getD (counts.length - 1) 0) % U32.M

/-- Helper for the proof: the capped counts where the offset of the head is
carried as an accumulator (`off` is `Σ` of the counts already passed). -/
def capFrom (maxOut : ℕ) : ℕ → List ℕ → List ℕ
  | _, [] => []
  | off, c :: cs => capCount maxOut off c :: capFrom maxOut (off + c) cs

theorem capPassCounts_eq_capFrom (maxOut : ℕ) (counts : List ℕ) :
    capPassCounts maxOut counts = capFrom maxOut 0 counts := by
  suffices h : ∀ (cs : List ℕ) (b : ℕ),
      List.zipWith (capCount maxOut) (ListUtil.scanExclFrom b cs) cs = capFrom maxOut b cs by
    exact h counts 0
  intro cs
  induction cs with
  | nil => intro b; rfl
  | cons c cs ih =>
    intro b
    simp only [ListUtil.scanExclFrom_cons, List.zipWith_cons_cons, capFrom, ih (b + c)]

theorem capFrom_sum_le (maxOut : ℕ) (counts : List ℕ) (hc : ∀ c ∈ counts, c ≤ 2) :
    ∀ off : ℕ, (capFrom maxOut off counts).sum ≤ maxOut - off := by
  induction counts with
  | nil => intro off; simp [capFrom]
  | cons c cs ih =>
    intro off
    have hc0 : c ≤ 2 := hc c (by simp)
    have ihs : (capFrom maxOut (off + c) cs).sum ≤ maxOut - (off + c) :=
      ih (fun x hx => hc x (by simp [hx])) (off + c)
    simp only [capFrom, List.sum_cons]
    unfold capCount
    split
    · omega
    · split
      · omega
      · split
        · omega
        · omega

theorem capFrom_length (maxOut : ℕ) :
    ∀ (off : ℕ) (counts : List ℕ), (capFrom maxOut off counts).length = counts.length := by
  intro off counts
  induction counts generalizing off with
  | nil => rfl
  | cons c cs ih => simp [capFrom, ih]

/-- The total of the capped counts is their exact sum (no u32 wrap): needed to
relate `total_main` to `List.sum`. -/
theorem totalMain_eq_sum (l : List ℕ) (hne : l ≠ []) (hl : l.sum < U32.M) :
    totalMain (ListUtil.scanExcl l) l = l.sum := by
  have hlen : l.length ≠ 0 := by simpa using hne
  have hidx : l.length - 1 < l.length := by omega
  unfold totalMain
  rw [if_neg hlen, ListUtil.scanExcl_getD _ _ hidx,
    ListUtil.take_pred_sum_add_last _ hne, Nat.mod_eq_of_lt hl]

theorem capPassCounts_sum_le (maxOut : ℕ) (counts : List ℕ)
    (hc : ∀ c ∈ counts, c ≤ 2) : (capPassCounts maxOut counts).sum ≤ maxOut := by
  rw [capPassCounts_eq_capFrom]
  simpa using capFrom_sum_le maxOut counts hc 0

end DensifyPrune

/-- C3: after the cap pass runs on the exclusive-scan offsets of the decided
counts (count←0 / action←PRUNE when `offset ≥ max_out_points`, count 2→1 with
action KEEP when `offset = max_out_points - 1`), the re-scanned total
`scan[N−1] + count[N−1]` computed by `total_main` never exceeds
`max_out_points`, so the scatter cannot write past the output capacity.
The decided counts are in `{0,1,2}` (hypothesis `hc`, established by the
decide pass, claim C2) and `max_out_points` is a u32 (hypothesis `hmo`). -/
theorem cap_then_rescan_total_le_maxOut (maxOut : ℕ) (counts : List ℕ)
    (hmo : maxOut < U32.M) (hc : ∀ c ∈ counts, c ≤ 2) :
    DensifyPrune.totalMain
      (ListUtil.scanExcl (DensifyPrune.capPassCounts maxOut counts))
      (DensifyPrune.capPassCounts maxOut counts) ≤ maxOut := by
  set capped := DensifyPrune.capPassCounts maxOut counts with hcap
  have hsum : capped.sum ≤ maxOut := DensifyPrune.capPassCounts_sum_le maxOut counts hc
  rcases eq_or_ne capped [] with h | h
  · have : capped.length = 0 := by simp [h]
    simp [DensifyPrune.totalMain, this]
  · rw [DensifyPrune.totalMain_eq_sum capped h (lt_of_le_of_lt hsum hmo)]
    exact hsum

/-- Witness for `cap_then_rescan_total_le_maxOut` at `max_out_points = 3`,
decided counts `[1, 2, 2, 1]` (the capped counts are `[1, 2, 0, 0]`). -/
theorem cap_then_rescan_total_le_maxOut_witness :
    3 < U32.M ∧ (∀ c ∈ [1, 2, 2, 1], c ≤ 2) ∧
      DensifyPrune.totalMain
        (ListUtil.scanExcl (DensifyPrune.capPassCounts 3 [1, 2, 2, 1]))
        (DensifyPrune.capPassCounts 3 [1, 2, 2, 1]) ≤ 3 :=
  ⟨by decide, by decide,
    cap_then_rescan_total_le_maxOut 3 [1, 2, 2, 1] (by decide) (by decide)⟩

/-!
## WGSL scalar and vector model

`f32` scalars are elements of a linear ordered field `F`.  The WGSL builtin
functions that have no exact field counterpart are supplied as a record of
operations; structural theorems quantify over the record, and theorems that
need genuine facts about `exp` instantiate `F := ℝ`, `exp := Real.exp`.
-/

/-- The WGSL builtins used by the embedded shaders.  `pack2x16float` /
`unpack2x16float` convert between a u32 word and a pair of f16 halves
`(low, high)`. -/
structure WgslOps (F : Type) where
  exp : F → F
  log : F → F
  sqrt : F → F
  inverseSqrt : F → F
  pack2x16float : F × F → ℕ
  unpack2x16float : ℕ → F × F
  toU32 : F → ℕ
  bitcastToU32 : F → ℕ

/-- 3-component WGSL vector. -/
structure Vec3 (F : Type) where
  x : F
  y : F
  z : F
deriving DecidableEq

/-- 4-component WGSL vector. -/
structure Vec4 (F : Type) where
  x : F
  y : F
  z : F
  w : F
deriving DecidableEq

/-- Packed Gaussian record: 24 bytes as six u32 words, each holding two f16
halves (struct `Gaussian` in the WGSL sources). -/
structure Gaussian where
  posOpacity0 : ℕ
  posOpacity1 : ℕ
  rot0 : ℕ
  rot1 : ℕ
  scale0 : ℕ
  scale1 : ℕ
deriving DecidableEq

instance : Inhabited Gaussian := ⟨⟨0, 0, 0, 0, 0, 0⟩⟩

/-- The logistic sigmoid `1 / (1 + exp(-x))` as written in the shaders. -/
def sigmoid {F : Type} [Field F] (ops : WgslOps F) (x : F) : F :=
  1 / (1 + ops.exp (-x))

/-!
## Densify/prune decide pass (`part_005`, `decide_main`)

One thread per Gaussian; thread `idx < cfg.num_points` writes
`out_counts[idx]` and `out_actions[idx]`.  The `_dummy` block that keeps the
future `pruning_score` / `max_radii` / `grad_accum` bindings alive can write
`out_actions[idx] = 123456`, but `out_actions[idx]` is unconditionally
overwritten at the end of the thread, so it has no observable effect and is
omitted from the model.
-/

namespace DensifyPrune

/-- Configuration uniform of the decide pass (`DecideConfig`). -/
structure DecideCfg (F : Type) where
  numPoints : ℕ
  numViews : ℕ
  cloneThresholdCount : ℕ
  pruneOpacity : F
  splitScaleThreshold : F

variable {F : Type} [LinearOrderedField F]

/-- Body of `decide_main` for one Gaussian (`part_005`, lines 43-89), given
the metric count read for this thread; returns `(out_count, out_action)`.
Actions are 0 KEEP, 1 CLONE, 2 SPLIT, 3 PRUNE. -/
def decideMain (ops : WgslOps F) (cfg : DecideCfg F) (g : Gaussian) (count : ℕ) :
    ℕ × ℕ :=
  let pos1 := ops.unpack2x16float g.posOpacity1
  let opacity := sigmoid ops pos1.2
  if opacity < cfg.pruneOpacity then (0, 3)
  else if cfg.cloneThresholdCount ≤ count then
    let s0 := ops.unpack2x16float g.scale0
    let s1 := ops.unpack2x16float g.scale1
    let maxScale := max (ops.exp s0.1) (max (ops.exp s0.2) (ops.exp s1.1))
    (2, if cfg.splitScaleThreshold ≤ maxScale then 2 else 1)
  else (1, 0)

/-- Full decide dispatch: entry `idx` of the result is
`(out_counts[idx], out_actions[idx])`.  The metric count is read through the
`arrayLength` guard of the source (`0` beyond the buffer). -/
def decidePass (ops : WgslOps F) (cfg : DecideCfg F) (gaussians : List Gaussian)
    (metricCounts : List ℕ) : List (ℕ × ℕ) :=
  (List.range cfg.numPoints).map fun idx =>
    decideMain ops cfg (gaussians.getD idx default) (metricCounts.getD idx 0)

theorem decidePass_getD (ops : WgslOps F) (cfg : DecideCfg F) (gaussians : List Gaussian)
    (metricCounts : List ℕ) (i : ℕ) (hi : i < cfg.numPoints) :
    (decidePass ops cfg gaussians metricCounts).getD i (0, 0) =
      decideMain ops cfg (gaussians.getD i default) (metricCounts.getD i 0) := by
  unfold decidePass
  have hlen : i < ((List.range cfg.numPoints).map fun idx =>
      decideMain ops cfg (gaussians.getD idx default) (metricCounts.getD idx 0)).length := by
    simpa using hi
  rw [List.getD_eq_getElem _ _ hlen]
  simp

end DensifyPrune

/-- C2: for every Gaussian `i` below `num_points`, the decide pass assigns:
if the sigmoid of the stored opacity logit is below `prune_opacity` then
action PRUNE (3) with count 0; otherwise if `metric_counts[i] ≥
clone_threshold_count` then count 2 with action SPLIT (2) when
`max (exp log_scale) ≥ split_scale_threshold` and CLONE (1) otherwise;
otherwise action KEEP (0) with count 1.  Entry `i` of `decidePass` is the
written `(out_counts[i], out_actions[i])` pair. -/
theorem decide_assigns_claimed_actions {F : Type} [LinearOrderedField F]
    (ops : WgslOps F) (cfg : DensifyPrune.DecideCfg F) (gaussians : List Gaussian)
    (metricCounts : List ℕ) (i : ℕ) (hi : i < cfg.numPoints)
    (hm : i < metricCounts.length) :
    (sigmoid ops (ops.unpack2x16float (gaussians.getD i default).posOpacity1).2 <
        cfg.pruneOpacity →
      (DensifyPrune.decidePass ops cfg gaussians metricCounts).getD i (0, 0) = (0, 3)) ∧
    (¬ sigmoid ops (ops.unpack2x16float (gaussians.getD i default).posOpacity1).2 <
        cfg.pruneOpacity →
      cfg.cloneThresholdCount ≤ metricCounts.getD i 0 →
      ((DensifyPrune.decidePass ops cfg gaussians metricCounts).getD i (0, 0)).1 = 2 ∧
      (cfg.splitScaleThreshold ≤
          max (ops.exp (ops.unpack2x16float (gaussians.getD i default).scale0).1)
            (max (ops.exp (ops.unpack2x16float (gaussians.getD i default).scale0).2)
              (ops.exp (ops.unpack2x16float (gaussians.getD i default).scale1).1)) →
        ((DensifyPrune.decidePass ops cfg gaussians metricCounts).getD i (0, 0)).2 = 2) ∧
      (max (ops.exp (ops.unpack2x16float (gaussians.getD i default).scale0).1)
          (max (ops.exp (ops.unpack2x16float (gaussians.getD i default).scale0).2)
            (ops.exp (ops.unpack2x16float (gaussians.getD i default).scale1).1)) <
          cfg.splitScaleThreshold →
        ((DensifyPrune.decidePass ops cfg gaussians metricCounts).getD i (0, 0)).2 = 1)) ∧
    (¬ sigmoid ops (ops.unpack2x16float (gaussians.getD i default).posOpacity1).2 <
        cfg.pruneOpacity →
      metricCounts.getD i 0 < cfg.cloneThresholdCount →
      (DensifyPrune.decidePass ops cfg gaussians metricCounts).getD i (0, 0) = (1, 0)) := by
  rw [DensifyPrune.decidePass_getD ops cfg gaussians metricCounts i hi]
  set g := gaussians.getD i default with hg
  set mc := metricCounts.getD i 0 with hmcdef
  simp only [DensifyPrune.decideMain]
  refine ⟨fun h => ?_, fun h hc => ?_, fun h hc => ?_⟩
  · rw [if_pos h]
  · rw [if_neg h, if_pos hc]
    refine ⟨rfl, fun hs => ?_, fun hs => ?_⟩
    · simp only [if_pos hs]
    · simp only [if_neg (not_le.mpr hs)]
  · rw [if_neg h, if_neg (not_le.mpr hc)]

/-- Concrete `WgslOps` over `ℚ` used by witnesses of the structural theorems
(the theorems hold for every interpretation of the builtins, so any
computable one exhibits them). -/
def opsQ : WgslOps ℚ where
  exp := fun _ => 1
  log := fun _ => 0
  sqrt := fun _ => 0
  inverseSqrt := fun _ => 0
  pack2x16float := fun _ => 0
  unpack2x16float := fun _ => (0, 0)
  toU32 := fun _ => 0
  bitcastToU32 := fun _ => 0

/-- Concrete decide configuration for the witness. -/
def cfgQ : DensifyPrune.DecideCfg ℚ :=
  { numPoints := 1, numViews := 1, cloneThresholdCount := 1,
    pruneOpacity := 1 / 4, splitScaleThreshold := 1 / 2 }

/-- Witness for `decide_assigns_claimed_actions`: one Gaussian, metric count 5,
clone threshold 1, sigmoid of opacity `1/2 ≥ 1/4`, max scale `1 ≥ 1/2`, so the
decide pass emits `(count, action) = (2, 2)` (SPLIT). -/
theorem decide_assigns_claimed_actions_witness :
    0 < cfgQ.numPoints ∧ 0 < ([5] : List ℕ).length ∧
      (DensifyPrune.decidePass opsQ cfgQ [default] [5]).getD 0 (0, 0) = (2, 2) := by
  refine ⟨by decide, by decide, ?_⟩
  have h := decide_assigns_claimed_actions opsQ cfgQ [default] [5] 0 (by decide) (by decide)
  have h2 := h.2.1 (by norm_num [sigmoid, opsQ, cfgQ]) (by decide)
  have hx : ((DensifyPrune.decidePass opsQ cfgQ [default] [5]).getD 0 (0, 0)).2 = 2 :=
    h2.2.1 (by norm_num [opsQ, cfgQ])
  have h1 : ((DensifyPrune.decidePass opsQ cfgQ [default] [5]).getD 0 (0, 0)).1 = 2 := h2.1
  exact Prod.ext h1 hx

/-!
## Generic densify/prune scatter driver

All six scatter entry points (`scatter_gaussians_main` in `part_002`,
`scatter_opt_pos_main` / `scatter_opt_vec4_main` in `update-gaussians.wgsl`,
`scatter_opt_scale_main`, `scatter_opt_sh_main` in
`densify-prune-scatter-opt-sh.wgsl`, `scatter_opt_float_main` in `part_004`)
share one control skeleton per input index `idx`:

```
c = out_counts[idx];           if (c == 0) return;
off = out_offsets[idx];        if (off >= info.out_points) return;
write_slot(off, idx, variant 0)
if (c == 2) { if (off + 1 < info.out_points) write_slot(off + 1, idx, variant 1) }
```

The skeleton is embedded once, parameterized by the per-kernel slot payload
`emit idx variant dst`.  Output storage buffers are fresh allocations, modelled
as `ℕ → Option α` starting from `fun _ => none` ("never written").
-/

namespace Scatter

variable {α : Type}

/-- Write one slot of an output buffer. -/
def setBuf (b : ℕ → Option α) (d : ℕ) (v : α) : ℕ → Option α :=
  fun j => if j = d then some v else b j

/-- Apply a list of `(destination, value)` writes in order. -/
def applyWrites (ws : List (ℕ × α)) (b : ℕ → Option α) : ℕ → Option α :=
  ws.foldl (fun acc w => setBuf acc w.1 w.2) b

/-- Writes issued by the thread for input `idx` (the shared kernel skeleton). -/
def writesFor (counts offsets : List ℕ) (outPoints : ℕ) (emit : ℕ → ℕ → ℕ → α)
    (idx : ℕ) : List (ℕ × α) :=
  let c := counts.getD idx 0
  let off := offsets.getD idx 0
  if c = 0 then []
  else if outPoints ≤ off then []
  else (off, emit idx 0 off) ::
    (if c = 2 then
      (if off + 1 < outPoints then [(off + 1, emit idx 1 (off + 1))] else [])
    else [])

/-- All writes of a scatter dispatch over `counts.length` threads.  The
threads' destination slots are pairwise disjoint (proved below), so the
sequential order of this list is immaterial. -/
def scatterWrites (counts offsets : List ℕ) (outPoints : ℕ)
    (emit : ℕ → ℕ → ℕ → α) : List (ℕ × α) :=
  (List.range counts.length).flatMap (writesFor counts offsets outPoints emit)

/-- Final contents of the scattered output buffer. -/
def scatterOut (counts offsets : List ℕ) (outPoints : ℕ)
    (emit : ℕ → ℕ → ℕ → α) : ℕ → Option α :=
  applyWrites (scatterWrites counts offsets outPoints emit) (fun _ => none)

theorem applyWrites_cons (w : ℕ × α) (ws : List (ℕ × α)) (b : ℕ → Option α) :
    applyWrites (w :: ws) b = applyWrites ws (setBuf b w.1 w.2) := rfl

theorem applyWrites_not_mem (ws : List (ℕ × α)) (b : ℕ → Option α) (d : ℕ)
    (h : d ∉ ws.map Prod.fst) : applyWrites ws b d = b d := by
  induction ws generalizing b with
  | nil => rfl
  | cons w t ih =>
    simp only [List.map_cons, List.mem_cons, not_or] at h
    rw [applyWrites_cons, ih _ h.2]
    simp [setBuf, h.1]

theorem applyWrites_mem_nodup (ws : List (ℕ × α)) (b : ℕ → Option α) (d : ℕ) (a : α)
    (hnd : (ws.map Prod.fst).Nodup) (hmem : (d, a) ∈ ws) :
    applyWrites ws b d = some a := by
  induction ws generalizing b with
  | nil => simp at hmem
  | cons w t ih =>
    simp only [List.map_cons, List.nodup_cons] at hnd
    rcases List.mem_cons.mp hmem with h | h
    · subst h
      rw [applyWrites_cons, applyWrites_not_mem t _ d hnd.1]
      simp [setBuf]
    · exact (applyWrites_cons w t b).symm ▸ ih _ hnd.2 h

theorem applyWrites_isSome_of_mem (ws : List (ℕ × α)) (b : ℕ → Option α) (d : ℕ)
    (h : d ∈ ws.map Prod.fst) : (applyWrites ws b d).isSome := by
  induction ws generalizing b with
  | nil => simp at h
  | cons w t ih =>
    rw [applyWrites_cons]
    by_cases hd : d ∈ t.map Prod.fst
    · exact ih _ hd
    · simp only [List.map_cons, List.mem_cons] at h
      rcases h with h | h
      · rw [applyWrites_not_mem t _ d hd]
        simp [setBuf, h]
      · exact absurd h hd

theorem applyWrites_isSome_iff (ws : List (ℕ × α)) (d : ℕ) :
    (applyWrites ws (fun _ => none) d).isSome ↔ d ∈ ws.map Prod.fst := by
  constructor
  · intro h
    by_contra hd
    rw [applyWrites_not_mem ws _ d hd] at h
    simp at h
  · exact applyWrites_isSome_of_mem ws _ d

/-- Characterization of one thread's writes when the offsets are the exclusive
scan of the counts and the budget covers the total. -/
theorem writesFor_eq (counts : List ℕ) (total : ℕ) (emit : ℕ → ℕ → ℕ → α) (i : ℕ)
    (hi : i < counts.length) (hc : counts.getD i 0 ≤ 2)
    (hfit : (counts.take i).sum + counts.getD i 0 ≤ total) :
    writesFor counts (ListUtil.scanExcl counts) total emit i =
      (List.range' ((counts.take i).sum) (counts.getD i 0)).map
        (fun d => (d, emit i (d - (counts.take i).sum) d)) := by
  have hoff : (ListUtil.scanExcl counts).getD i 0 = (counts.take i).sum :=
    ListUtil.scanExcl_getD counts i hi
  unfold writesFor
  rw [hoff]
  set c := counts.getD i 0 with hcdef
  set off := (counts.take i).sum with hoffdef
  interval_cases c
  · simp
  · rw [if_neg (by omega), if_neg (by omega), if_neg (by omega)]
    simp [List.range']
  · rw [if_neg (by omega), if_neg (by omega), if_pos rfl, if_pos (by omega)]
    simp [List.range']

theorem getD_mem_of_lt (l : List ℕ) (i : ℕ) (h : i < l.length) : l.getD i 0 ∈ l := by
  rw [List.getD_eq_getElem?_getD, List.getElem?_eq_getElem h]
  exact List.getElem_mem h

theorem take_succ_sum (l : List ℕ) (i : ℕ) (hi : i < l.length) :
    (l.take (i + 1)).sum = (l.take i).sum + l.getD i 0 := by
  rw [List.take_succ, List.sum_append, List.getElem?_eq_getElem hi]
  simp [List.getD_eq_getElem?_getD, List.getElem?_eq_getElem hi]

theorem take_sum_le (l : List ℕ) (k : ℕ) : (l.take k).sum ≤ l.sum := by
  conv_rhs => rw [← List.take_append_drop k l]
  rw [List.sum_append]
  exact Nat.le_add_right _ _

theorem bind_range'_take_sum (l : List ℕ) :
    ∀ k, k ≤ l.length →
      (List.range k).flatMap (fun i => List.range' ((l.take i).sum) (l.getD i 0)) =
        List.range' 0 ((l.take k).sum) := by
  intro k
  induction k with
  | zero => intro _; simp
  | succ j ih =>
    intro h
    rw [List.range_succ, List.flatMap_append, ih (by omega), List.flatMap_cons,
      List.flatMap_nil, List.append_nil, take_succ_sum l j (by omega)]
    have hr := List.range'_append_1 0 ((l.take j).sum) (l.getD j 0)
    rw [Nat.zero_add] at hr
    exact hr.trans (by rw [Nat.add_comm])

theorem scatterWrites_map_fst (counts : List ℕ) (emit : ℕ → ℕ → ℕ → α)
    (hc : ∀ c ∈ counts, c ≤ 2) :
    (scatterWrites counts (ListUtil.scanExcl counts) counts.sum emit).map Prod.fst =
      List.range counts.sum := by
  unfold scatterWrites
  rw [List.map_flatMap]
  have hpt : ∀ i ∈ List.range counts.length,
      (writesFor counts (ListUtil.scanExcl counts) counts.sum emit i).map Prod.fst =
        List.range' ((counts.take i).sum) (counts.getD i 0) := by
    intro i hi
    have hi2 : i < counts.length := List.mem_range.mp hi
    have hcle : counts.getD i 0 ≤ 2 := by
      rcases lt_or_ge i counts.length with h | h
      · exact hc _ (getD_mem_of_lt counts i h)
      · omega
    have hfit : (counts.take i).sum + counts.getD i 0 ≤ counts.sum := by
      have := take_succ_sum counts i hi2
      have h2 := take_sum_le counts (i + 1)
      omega
    rw [writesFor_eq counts counts.sum emit i hi2 hcle hfit, List.map_map]
    have : (Prod.fst ∘ fun d => ((d : ℕ), emit i (d - (counts.take i).sum) d)) = id := by
      funext d; rfl
    rw [this, List.map_id]
  rw [List.flatMap_congr hpt, bind_range'_take_sum counts counts.length le_rfl,
    List.take_length, List.range_eq_range']

/-- Scatter-total conservation, generic in the payload: with offsets the
exclusive scan of the counts and the output sized to `Σ counts`, slot `d` of
the output is written if and only if `d < Σ counts`. -/
theorem scatterOut_isSome_iff (counts : List ℕ) (emit : ℕ → ℕ → ℕ → α)
    (hc : ∀ c ∈ counts, c ≤ 2) (d : ℕ) :
    (scatterOut counts (ListUtil.scanExcl counts) counts.sum emit d).isSome ↔
      d < counts.sum := by
  rw [scatterOut, applyWrites_isSome_iff, scatterWrites_map_fst counts emit hc,
    List.mem_range]

/-- Unique-write lemma, generic in the payload: slot `off_i + s` (for
`s < counts[i]`) of the output holds exactly the value emitted by input `i`
for variant `s`. -/
theorem scatterOut_at (counts : List ℕ) (emit : ℕ → ℕ → ℕ → α)
    (hc : ∀ c ∈ counts, c ≤ 2) (i : ℕ) (hi : i < counts.length) (s : ℕ)
    (hs : s < counts.getD i 0) :
    scatterOut counts (ListUtil.scanExcl counts) counts.sum emit
        ((counts.take i).sum + s) =
      some (emit i s ((counts.take i).sum + s)) := by
  apply applyWrites_mem_nodup
  · rw [scatterWrites_map_fst counts emit hc]
    exact List.nodup_range _
  · unfold scatterWrites
    apply List.mem_flatMap.mpr
    refine ⟨i, List.mem_range.mpr hi, ?_⟩
    have hcle : counts.getD i 0 ≤ 2 := hc _ (getD_mem_of_lt counts i hi)
    have hfit : (counts.take i).sum + counts.getD i 0 ≤ counts.sum := by
      have := take_succ_sum counts i hi
      have h2 := take_sum_le counts (i + 1)
      omega
    rw [writesFor_eq counts counts.sum emit i hi hcle hfit]
    apply List.mem_map.mpr
    refine ⟨(counts.take i).sum + s, ?_, ?_⟩
    · rw [List.mem_range'_1]
      omega
    · rw [Nat.add_sub_cancel_left]

end Scatter

/-!
## WGSL vector arithmetic

Componentwise vector operations used by the scatter and forward kernels.
WGSL `vecN * vecN` is componentwise (Hadamard); `scalar * vecN` scales.
-/

namespace Vec3

variable {F : Type} [Field F]

instance : Add (Vec3 F) := ⟨fun a b => ⟨a.x + b.x, a.y + b.y, a.z + b.z⟩⟩

instance : Sub (Vec3 F) := ⟨fun a b => ⟨a.x - b.x, a.y - b.y, a.z - b.z⟩⟩

instance : SMul F (Vec3 F) := ⟨fun s a => ⟨s * a.x, s * a.y, s * a.z⟩⟩

/-- Componentwise product (WGSL `vec3 * vec3`). -/
def hadamard (a b : Vec3 F) : Vec3 F := ⟨a.x * b.x, a.y * b.y, a.z * b.z⟩

/-- Dot product. -/
def dot (a b : Vec3 F) : F := a.x * b.x + a.y * b.y + a.z * b.z

/-- Cross product. -/
def cross (a b : Vec3 F) : Vec3 F :=
  ⟨a.y * b.z - a.z * b.y, a.z * b.x - a.x * b.z, a.x * b.y - a.y * b.x⟩

/-- Componentwise map (used for `exp(vec3)` / `clamp(vec3, lo, hi)`). -/
def map (f : F → F) (a : Vec3 F) : Vec3 F := ⟨f a.x, f a.y, f a.z⟩

end Vec3

namespace Vec4

variable {F : Type} [Field F]

instance : Add (Vec4 F) := ⟨fun a b => ⟨a.x + b.x, a.y + b.y, a.z + b.z, a.w + b.w⟩⟩

instance : SMul F (Vec4 F) := ⟨fun s a => ⟨s * a.x, s * a.y, s * a.z, s * a.w⟩⟩

/-- Dot product. -/
def dot (a b : Vec4 F) : F := a.x * b.x + a.y * b.y + a.z * b.z + a.w * b.w

end Vec4

/-!
## Densify/prune Gaussian + SH scatter (`part_002`)

`copy_point(dst_idx, src_idx, variant, action)` copies (or perturbs) one
packed Gaussian into an output slot and copies its 24 SH words.  The output
SH buffer is modelled through the per-slot window function: the write of
payload `(g, shWin)` to slot `dst` stands for `out_gaussians[dst] = g` and
`out_sh[dst*24 + w] = shWin w` for `w < 24` (the windows of distinct slots
are disjoint, so this is exact).
-/

namespace DensifyPrune

variable {F : Type} [LinearOrderedField F]

/-- Constant `LN_1P6 = 0.4700036292457356` (`ln 1.6`) from `part_002`. -/
def lnOnePoint6 (F : Type) [Field F] : F := 4700036292457356 / 10000000000000000

/-- Constant `OPACITY_MAX = 0.8` from `part_002` / `part_004`. -/
def opacityMax (F : Type) [Field F] : F := 8 / 10

/-- Constant `OPACITY_MAX_RAW = 1.38629436112` (`ln 4` to 12 digits) from
`part_002` / `part_004`. -/
def opacityMaxRaw (F : Type) [Field F] : F := 138629436112 / 100000000000

/-- `hash_u32` from `part_002` (u32 xorshift-multiply hash). -/
def hashU32 (x : ℕ) : ℕ :=
  let v0 := x % U32.M
  let v1 := v0 ^^^ (v0 >>> 16)
  let v2 := (v1 * 0x7feb352d) % U32.M
  let v3 := v2 ^^^ (v2 >>> 15)
  let v4 := (v3 * 0x846ca68b) % U32.M
  v4 ^^^ (v4 >>> 16)

/-- `rand01`: hash converted to f32 and scaled into `[0, 1)`. -/
def rand01 (F : Type) [Field F] (seed : ℕ) : F := (hashU32 seed : F) * (1 / 4294967296)

/-- `randn_approx`: approximate standard normal via sum of six uniforms. -/
def randnApprox (F : Type) [Field F] (seed : ℕ) : F :=
  ((rand01 F (seed ^^^ 0xA2C79) + rand01 F (seed ^^^ 0x5E2D9) + rand01 F (seed ^^^ 0x1B873) +
      rand01 F (seed ^^^ 0xC0FFE) + rand01 F (seed ^^^ 0xBADC0) + rand01 F (seed ^^^ 0xDEADB)) -
    3) * (141421356237 / 100000000000)

/-- `clamp_log_scale`: componentwise clamp to `[-10, 10]`. -/
def clampLogScale (ls : Vec3 F) : Vec3 F :=
  Vec3.map (fun v => min 10 (max (-10) v)) ls

/-- `quat_normalize`: normalize with the `max(1e-12, |q|²)` guard. -/
def quatNormalize (ops : WgslOps F) (q : Vec4 F) : Vec4 F :=
  let len2 := max (1 / 1000000000000) (Vec4.dot q q)
  ops.inverseSqrt len2 • q

/-- `quat_rotate`: rotate `v` by the quaternion stored as `(w,x,y,z)`. -/
def quatRotate (ops : WgslOps F) (qIn : Vec4 F) (v : Vec3 F) : Vec3 F :=
  let q := quatNormalize ops qIn
  let u : Vec3 F := ⟨q.y, q.z, q.w⟩
  let s := q.x
  (2 * Vec3.dot u v) • u + (s * s - Vec3.dot u u) • v + (2 * s) • Vec3.cross u v

/-- `copy_point(dst_idx, src_idx, variant, action)` from `part_002`
(lines 79-150).  Returns the written packed Gaussian and the SH word window
`w ↦ out_sh[dst*24 + w]`. -/
def copyPoint (ops : WgslOps F) (inG : List Gaussian) (inSH : List ℕ)
    (dstIdx srcIdx variant action : ℕ) : Gaussian × (ℕ → ℕ) :=
  let g := inG.getD srcIdx default
  let p0 := ops.unpack2x16float g.posOpacity0
  let p1 := ops.unpack2x16float g.posOpacity1
  let op := sigmoid ops p1.2
  let opacityClamped := opacityMax F < op
  let opacityRaw := if opacityClamped then opacityMaxRaw F else p1.2
  let r0 := ops.unpack2x16float g.rot0
  let r1 := ops.unpack2x16float g.rot1
  let q : Vec4 F := ⟨r0.1, r0.2, r1.1, r1.2⟩
  let s0 := ops.unpack2x16float g.scale0
  let s1 := ops.unpack2x16float g.scale1
  let logSigma := clampLogScale (⟨s0.1, s0.2, s1.1⟩ : Vec3 F)
  let sigma := Vec3.map ops.exp logSigma
  let pos : Vec3 F := ⟨p0.1, p0.2, p1.1⟩
  let needsTransform := action = 2 ∨ (action = 1 ∧ variant = 1)
  let shWin : ℕ → ℕ := fun w => inSH.getD (srcIdx * 24 + w) 0
  if ¬needsTransform ∧ ¬opacityClamped then (g, shWin)
  else
    let pos2 :=
      if action = 1 ∧ variant = 1 then
        let seed := (srcIdx * 1664525 + dstIdx * 1013904223) % U32.M
        let r : Vec3 F := ⟨rand01 F (seed ^^^ 0xA2C79) * 2 - 1,
          rand01 F (seed ^^^ 0x5E2D9) * 2 - 1, rand01 F (seed ^^^ 0x1B873) * 2 - 1⟩
        pos + quatRotate ops q (Vec3.hadamard ((1 / 4 : F) • sigma) r)
      else pos
    let step3 : Vec3 F × ℕ × ℕ :=
      if action = 2 then
        let seed := (srcIdx * 747796405 + 2891336453) % U32.M
        let d : Vec3 F := ⟨randnApprox F (seed ^^^ 0x9E3779B9),
          randnApprox F (seed ^^^ 0x243F6A88), randnApprox F (seed ^^^ 0xB7E15162)⟩
        let offsetLocal := Vec3.hadamard ((1 / 2 : F) • sigma) d
        let sgn : F := if variant = 1 then -1 else 1
        let logChild := logSigma - (⟨lnOnePoint6 F, lnOnePoint6 F, lnOnePoint6 F⟩ : Vec3 F)
        (pos2 + sgn • quatRotate ops q offsetLocal,
          ops.pack2x16float (logChild.x, logChild.y), ops.pack2x16float (logChild.z, 0))
      else (pos2, g.scale0, g.scale1)
    ({ posOpacity0 := ops.pack2x16float (step3.1.x, step3.1.y),
       posOpacity1 := ops.pack2x16float (step3.1.z, opacityRaw),
       rot0 := g.rot0, rot1 := g.rot1,
       scale0 := step3.2.1, scale1 := step3.2.2 }, shWin)

/-- Slot payload of `scatter_gaussians_main` (`part_002`, lines 153-182): the
thread for input `idx` calls `copy_point(dst, idx, variant, _act)` with
`_act = out_actions[idx]` read through the `arrayLength` guard. -/
def scatterGaussiansEmit (ops : WgslOps F) (inG : List Gaussian) (inSH : List ℕ)
    (actions : List ℕ) : ℕ → ℕ → ℕ → Gaussian × (ℕ → ℕ) :=
  fun idx variant dst => copyPoint ops inG inSH dst idx variant (actions.getD idx 0)

/-- Output buffers of the whole `scatter_gaussians_main` dispatch. -/
def scatterGaussiansOut (ops : WgslOps F) (inG : List Gaussian) (inSH : List ℕ)
    (counts offsets actions : List ℕ) (outPoints : ℕ) :
    ℕ → Option (Gaussian × (ℕ → ℕ)) :=
  Scatter.scatterOut counts offsets outPoints (scatterGaussiansEmit ops inG inSH actions)

/-- Word `j` of the scattered `out_sh` buffer. -/
def scatterSHWord (buf : ℕ → Option (Gaussian × (ℕ → ℕ))) (j : ℕ) : Option ℕ :=
  (buf (j / 24)).map (fun p => p.2 (j % 24))

end DensifyPrune

/-- C4: with `out_offsets` the exclusive scan of the (capped) counts and the
output sized to `N_out = Σ count_i`, the Gaussian scatter writes slot `d` iff
`d < Σ count_i` — so the number of output Gaussians equals `Σ count_i`
exactly — and every input with action KEEP (0) whose output needs no
perturbation (its opacity sigmoid is not above the 0.8 clamp) is copied
verbatim: its packed 24-byte Gaussian record and all 24 SH words are
bit-identical to the input. -/
theorem scatter_total_conservation_and_keep_verbatim {F : Type} [LinearOrderedField F]
    (ops : WgslOps F) (inG : List Gaussian) (inSH : List ℕ) (counts actions : List ℕ)
    (hc : ∀ c ∈ counts, c ≤ 2) :
    (∀ d, (DensifyPrune.scatterGaussiansOut ops inG inSH counts
        (ListUtil.scanExcl counts) actions counts.sum d).isSome ↔ d < counts.sum) ∧
    (∀ i, i < counts.length → 1 ≤ counts.getD i 0 → actions.getD i 0 = 0 →
      ¬(DensifyPrune.opacityMax F <
          sigmoid ops (ops.unpack2x16float (inG.getD i default).posOpacity1).2) →
      DensifyPrune.scatterGaussiansOut ops inG inSH counts (ListUtil.scanExcl counts)
          actions counts.sum ((counts.take i).sum) =
        some (inG.getD i default, fun w => inSH.getD (i * 24 + w) 0) ∧
      ∀ w, w < 24 →
        DensifyPrune.scatterSHWord
            (DensifyPrune.scatterGaussiansOut ops inG inSH counts
              (ListUtil.scanExcl counts) actions counts.sum)
            ((counts.take i).sum * 24 + w) =
          some (inSH.getD (i * 24 + w) 0)) := by
  constructor
  · intro d
    exact Scatter.scatterOut_isSome_iff counts _ hc d
  · intro i hi h1 ha hop
    have h0 := Scatter.scatterOut_at counts
      (DensifyPrune.scatterGaussiansEmit ops inG inSH actions) hc i hi 0 (by omega)
    rw [Nat.add_zero] at h0
    have hemit : DensifyPrune.scatterGaussiansEmit ops inG inSH actions i 0
        ((counts.take i).sum) =
        (inG.getD i default, fun w => inSH.getD (i * 24 + w) 0) := by
      simp only [DensifyPrune.scatterGaussiansEmit, DensifyPrune.copyPoint, ha]
      split
      · rfl
      · next hcond => exact absurd ⟨by decide, hop⟩ hcond
    have hbuf : DensifyPrune.scatterGaussiansOut ops inG inSH counts
        (ListUtil.scanExcl counts) actions counts.sum ((counts.take i).sum) =
        some (inG.getD i default, fun w => inSH.getD (i * 24 + w) 0) := by
      rw [DensifyPrune.scatterGaussiansOut, h0, hemit]
    refine ⟨hbuf, fun w hw => ?_⟩
    have hdiv : ((counts.take i).sum * 24 + w) / 24 = (counts.take i).sum := by
      rw [Nat.mul_comm, Nat.mul_add_div (by norm_num), Nat.div_eq_of_lt hw, Nat.add_zero]
    have hmod : ((counts.take i).sum * 24 + w) % 24 = w := by
      rw [Nat.mul_comm, Nat.mul_add_mod, Nat.mod_eq_of_lt hw]
    rw [DensifyPrune.scatterSHWord, hdiv, hmod, hbuf]
    rfl

/-- Witness for `scatter_total_conservation_and_keep_verbatim`: one KEEP input
with unclamped opacity (sigmoid `1/2 ≤ 0.8`) is copied verbatim to slot 0. -/
theorem scatter_total_conservation_and_keep_verbatim_witness :
    (∀ c ∈ [1], c ≤ 2) ∧ 0 < ([1] : List ℕ).length ∧
      ¬(DensifyPrune.opacityMax ℚ <
          sigmoid opsQ (opsQ.unpack2x16float
            (([default] : List Gaussian).getD 0 default).posOpacity1).2) ∧
      DensifyPrune.scatterGaussiansOut opsQ [default] [] [1] (ListUtil.scanExcl [1])
          [0] ([1] : List ℕ).sum ((([1] : List ℕ).take 0).sum) =
        some (([default] : List Gaussian).getD 0 default,
          fun w => ([] : List ℕ).getD (0 * 24 + w) 0) := by
  have hop : ¬(DensifyPrune.opacityMax ℚ <
      sigmoid opsQ (opsQ.unpack2x16float
        (([default] : List Gaussian).getD 0 default).posOpacity1).2) := by
    norm_num [DensifyPrune.opacityMax, sigmoid, opsQ]
  refine ⟨by decide, by decide, hop, ?_⟩
  exact ((scatter_total_conservation_and_keep_verbatim opsQ [default] [] [1] [0]
    (by decide)).2 0 (by decide) (by decide) (by decide) hop).1

/-!
## Optimizer-state scatters

Five kernels share the driver skeleton: `scatter_opt_pos_main` and
`scatter_opt_vec4_main` (`update-gaussians.wgsl`), `scatter_opt_scale_main`
and `scatter_opt_sh_main` (`densify-prune-scatter-opt-sh.wgsl`), and
`scatter_opt_float_main` (`part_004`, the opacity group).  In each kernel the
slot passed `variant = 1` (clone slot 1 / split slot 1) is "new", and for
SPLIT (`action == 2`) slot 0 is new as well.
-/

namespace DensifyPrune

variable {F : Type} [LinearOrderedField F]

/-- `OptVec4`: f32 vec4 optimizer state triple. -/
structure OptVec4 (F : Type) where
  param : Vec4 F
  m : Vec4 F
  v : Vec4 F
deriving DecidableEq

/-- `OptFloat`: f32 scalar optimizer state triple. -/
structure OptFloat (F : Type) where
  param : F
  m : F
  v : F
deriving DecidableEq

instance : Inhabited (OptVec4 F) := ⟨⟨⟨0, 0, 0, 0⟩, ⟨0, 0, 0, 0⟩, ⟨0, 0, 0, 0⟩⟩⟩

instance : Inhabited (OptFloat F) := ⟨⟨0, 0, 0⟩⟩

/-- The zero vec4 (`vec4<f32>(0.0)`). -/
def v4zero (F : Type) [Field F] : Vec4 F := ⟨0, 0, 0, 0⟩

/-- `write_slot` of `scatter_opt_vec4_main` (`update-gaussians.wgsl`,
lines 236-246): copy param, preserve `(m, v)` unless `reset_new_state ∧ is_new`. -/
def optVec4WriteSlot (resetNewState : ℕ) (inOpt : List (OptVec4 F)) (srcIdx : ℕ)
    (isNew : Prop) [Decidable isNew] : OptVec4 F :=
  let src := inOpt.getD srcIdx default
  if resetNewState ≠ 0 ∧ isNew then ⟨src.param, v4zero F, v4zero F⟩
  else ⟨src.param, src.m, src.v⟩

/-- Whole `scatter_opt_vec4_main` dispatch (used for the rotation group). -/
def scatterOptVec4Out (resetNewState : ℕ) (inOpt : List (OptVec4 F))
    (counts offsets actions : List ℕ) (outPoints : ℕ) : ℕ → Option (OptVec4 F) :=
  Scatter.scatterOut counts offsets outPoints fun idx variant _dst =>
    optVec4WriteSlot resetNewState inOpt idx
      (variant = 1 ∨ actions.getD idx 0 = 2)

/-- `write_slot` of `scatter_opt_pos_main` (`update-gaussians.wgsl`,
lines 143-187): position param gets the clone jitter / split offset of the
Gaussian scatter (recomputed from the f32 optimizer buffers), `(m, v)` follow
the reset rule. -/
def optPosWriteSlot (ops : WgslOps F) (resetNewState : ℕ)
    (inPos inRot inScale : List (OptVec4 F)) (dstIdx srcIdx variant action : ℕ) :
    OptVec4 F :=
  let src := inPos.getD srcIdx default
  let isNew := variant = 1 ∨ action = 2
  let q := (inRot.getD srcIdx default).param
  let sp := (inScale.getD srcIdx default).param
  let logSigma := clampLogScale (⟨sp.x, sp.y, sp.z⟩ : Vec3 F)
  let sigma := Vec3.map ops.exp logSigma
  let p := src.param
  let p2 : Vec4 F :=
    if action = 1 ∧ variant = 1 then
      let seed := (srcIdx * 1664525 + dstIdx * 1013904223) % U32.M
      let r : Vec3 F := ⟨rand01 F (seed ^^^ 0xA2C79) * 2 - 1,
        rand01 F (seed ^^^ 0x5E2D9) * 2 - 1, rand01 F (seed ^^^ 0x1B873) * 2 - 1⟩
      let pr := quatRotate ops q (Vec3.hadamard ((1 / 4 : F) • sigma) r)
      ⟨p.x + pr.x, p.y + pr.y, p.z + pr.z, p.w⟩
    else if action = 2 then
      let seed := (srcIdx * 747796405 + 2891336453) % U32.M
      let d : Vec3 F := ⟨randnApprox F (seed ^^^ 0x9E3779B9),
        randnApprox F (seed ^^^ 0x243F6A88), randnApprox F (seed ^^^ 0xB7E15162)⟩
      let pr := quatRotate ops q (Vec3.hadamard ((1 / 2 : F) • sigma) d)
      let sgn : F := if variant = 1 then -1 else 1
      ⟨p.x + sgn * pr.x, p.y + sgn * pr.y, p.z + sgn * pr.z, p.w⟩
    else p
  if resetNewState ≠ 0 ∧ isNew then ⟨p2, v4zero F, v4zero F⟩
  else ⟨p2, src.m, src.v⟩

/-- Whole `scatter_opt_pos_main` dispatch. -/
def scatterOptPosOut (ops : WgslOps F) (resetNewState : ℕ)
    (inPos inRot inScale : List (OptVec4 F)) (counts offsets actions : List ℕ)
    (outPoints : ℕ) : ℕ → Option (OptVec4 F) :=
  Scatter.scatterOut counts offsets outPoints fun idx variant dst =>
    optPosWriteSlot ops resetNewState inPos inRot inScale dst idx variant
      (actions.getD idx 0)

/-- `write_slot` of `scatter_opt_scale_main`
(`densify-prune-scatter-opt-sh.wgsl`, second shader, lines 378-396): split
children get `log_scale − ln 1.6`, `(m, v)` follow the reset rule. -/
def optScaleWriteSlot (resetNewState : ℕ) (inScale : List (OptVec4 F))
    (srcIdx variant action : ℕ) : OptVec4 F :=
  let src := inScale.getD srcIdx default
  let isNew := variant = 1 ∨ action = 2
  let p := src.param
  let p2 : Vec4 F :=
    if action = 2 then
      ⟨p.x - lnOnePoint6 F, p.y - lnOnePoint6 F, p.z - lnOnePoint6 F, p.w⟩
    else p
  if resetNewState ≠ 0 ∧ isNew then ⟨p2, v4zero F, v4zero F⟩
  else ⟨p2, src.m, src.v⟩

/-- Whole `scatter_opt_scale_main` dispatch. -/
def scatterOptScaleOut (resetNewState : ℕ) (inScale : List (OptVec4 F))
    (counts offsets actions : List ℕ) (outPoints : ℕ) : ℕ → Option (OptVec4 F) :=
  Scatter.scatterOut counts offsets outPoints fun idx variant _dst =>
    optScaleWriteSlot resetNewState inScale idx variant (actions.getD idx 0)

/-- `write_slot` of `scatter_opt_sh_main` (`densify-prune-scatter-opt-sh.wgsl`,
lines 21-30): copies the 48 SH params and preserves / zeroes the 48 `(m, v)`
pairs.  Payload is the per-slot window `k ↦ (out_param_sh[dst*48+k],
out_state_sh[dst*48+k])` for `k < 48`. -/
def optSHWriteSlot (resetNewState : ℕ) (inParamSH : List F) (inStateSH : List (F × F))
    (srcIdx : ℕ) (isNew : Prop) [Decidable isNew] : (ℕ → F) × (ℕ → F × F) :=
  if resetNewState ≠ 0 ∧ isNew then
    (fun k => inParamSH.getD (srcIdx * 48 + k) 0, fun _ => (0, 0))
  else
    (fun k => inParamSH.getD (srcIdx * 48 + k) 0,
      fun k => inStateSH.getD (srcIdx * 48 + k) (0, 0))

/-- Whole `scatter_opt_sh_main` dispatch. -/
def scatterOptSHOut (resetNewState : ℕ) (inParamSH : List F) (inStateSH : List (F × F))
    (counts offsets actions : List ℕ) (outPoints : ℕ) :
    ℕ → Option ((ℕ → F) × (ℕ → F × F)) :=
  Scatter.scatterOut counts offsets outPoints fun idx variant _dst =>
    optSHWriteSlot resetNewState inParamSH inStateSH idx
      (variant = 1 ∨ actions.getD idx 0 = 2)

/-- `write_slot` of `scatter_opt_float_main` (`part_004`, lines 29-36, the
opacity group): clamps the param in sigmoid space and sets `m = v = 0`
unconditionally (the `is_new` argument is unused by the source). -/
def optFloatWriteSlot (ops : WgslOps F) (inOpt : List (OptFloat F)) (srcIdx : ℕ) :
    OptFloat F :=
  let raw := (inOpt.getD srcIdx default).param
  let op := sigmoid ops raw
  { param := if opacityMax F < op then opacityMaxRaw F else raw, m := 0, v := 0 }

/-- Whole `scatter_opt_float_main` dispatch. -/
def scatterOptFloatOut (ops : WgslOps F) (inOpt : List (OptFloat F))
    (counts offsets actions : List ℕ) (outPoints : ℕ) : ℕ → Option (OptFloat F) :=
  Scatter.scatterOut counts offsets outPoints fun idx _variant _dst =>
    optFloatWriteSlot ops inOpt idx

end DensifyPrune

/-- C5 counterexample: the opacity optimizer scatter (`part_004`) does not
preserve the Adam moments of a KEEP slot.  Input: one Gaussian with opacity
state `(param, m, v) = (0, 1, 1)`, count 1, action KEEP, `reset_new_state`
unset — the claim requires `m = 1` at output slot 0, but the kernel writes
`m = 0`. -/
theorem opt_scatter_preserves_moments_counterexample :
    (DensifyPrune.scatterOptFloatOut opsQ
        ([⟨0, 1, 1⟩] : List (DensifyPrune.OptFloat ℚ)) [1] (ListUtil.scanExcl [1]) [0]
        (([1] : List ℕ).sum) 0).map DensifyPrune.OptFloat.m = some 0 ∧
      (([⟨0, 1, 1⟩] : List (DensifyPrune.OptFloat ℚ)).getD 0 default).m = 1 ∧
      (0 : ℚ) ≠ 1 := by
  refine ⟨rfl, rfl, by norm_num⟩

theorem optVec4WriteSlot_eq {F : Type} [LinearOrderedField F] (resetNewState : ℕ)
    (inOpt : List (DensifyPrune.OptVec4 F)) (srcIdx : ℕ) (isNew : Prop)
    [Decidable isNew] :
    DensifyPrune.optVec4WriteSlot resetNewState inOpt srcIdx isNew =
      if resetNewState ≠ 0 ∧ isNew then
        ⟨(inOpt.getD srcIdx default).param, DensifyPrune.v4zero F, DensifyPrune.v4zero F⟩
      else inOpt.getD srcIdx default := by
  unfold DensifyPrune.optVec4WriteSlot
  by_cases hr : resetNewState ≠ 0 ∧ isNew
  · rw [if_pos hr]
  · rw [if_neg hr]

theorem optPosWriteSlot_m {F : Type} [LinearOrderedField F] (ops : WgslOps F)
    (resetNewState : ℕ) (inPos inRot inScale : List (DensifyPrune.OptVec4 F))
    (dstIdx srcIdx variant action : ℕ) :
    (DensifyPrune.optPosWriteSlot ops resetNewState inPos inRot inScale dstIdx srcIdx
        variant action).m =
      if resetNewState ≠ 0 ∧ (variant = 1 ∨ action = 2) then DensifyPrune.v4zero F
      else (inPos.getD srcIdx default).m := by
  unfold DensifyPrune.optPosWriteSlot
  by_cases hr : resetNewState ≠ 0 ∧ (variant = 1 ∨ action = 2)
  · rw [if_pos hr, if_pos hr]
  · rw [if_neg hr, if_neg hr]

theorem optPosWriteSlot_v {F : Type} [LinearOrderedField F] (ops : WgslOps F)
    (resetNewState : ℕ) (inPos inRot inScale : List (DensifyPrune.OptVec4 F))
    (dstIdx srcIdx variant action : ℕ) :
    (DensifyPrune.optPosWriteSlot ops resetNewState inPos inRot inScale dstIdx srcIdx
        variant action).v =
      if resetNewState ≠ 0 ∧ (variant = 1 ∨ action = 2) then DensifyPrune.v4zero F
      else (inPos.getD srcIdx default).v := by
  unfold DensifyPrune.optPosWriteSlot
  by_cases hr : resetNewState ≠ 0 ∧ (variant = 1 ∨ action = 2)
  · rw [if_pos hr, if_pos hr]
  · rw [if_neg hr, if_neg hr]

theorem optPosWriteSlot_param_notNew {F : Type} [LinearOrderedField F] (ops : WgslOps F)
    (resetNewState : ℕ) (inPos inRot inScale : List (DensifyPrune.OptVec4 F))
    (dstIdx srcIdx variant action : ℕ) (h : ¬(variant = 1 ∨ action = 2)) :
    (DensifyPrune.optPosWriteSlot ops resetNewState inPos inRot inScale dstIdx srcIdx
        variant action).param = (inPos.getD srcIdx default).param := by
  unfold DensifyPrune.optPosWriteSlot
  have h1 : ¬(action = 1 ∧ variant = 1) := fun hx => h (Or.inl hx.2)
  have h2 : action ≠ 2 := fun hx => h (Or.inr hx)
  have hr : ¬(resetNewState ≠ 0 ∧ (variant = 1 ∨ action = 2)) := fun hx => h hx.2
  simp only [if_neg h1, if_neg h2, if_neg hr]

theorem optScaleWriteSlot_eq {F : Type} [LinearOrderedField F] (resetNewState : ℕ)
    (inScale : List (DensifyPrune.OptVec4 F)) (srcIdx variant action : ℕ) :
    DensifyPrune.optScaleWriteSlot resetNewState inScale srcIdx variant action =
      (⟨if action = 2 then
          ⟨(inScale.getD srcIdx default).param.x - DensifyPrune.lnOnePoint6 F,
            (inScale.getD srcIdx default).param.y - DensifyPrune.lnOnePoint6 F,
            (inScale.getD srcIdx default).param.z - DensifyPrune.lnOnePoint6 F,
            (inScale.getD srcIdx default).param.w⟩
        else (inScale.getD srcIdx default).param,
        if resetNewState ≠ 0 ∧ (variant = 1 ∨ action = 2) then DensifyPrune.v4zero F
        else (inScale.getD srcIdx default).m,
        if resetNewState ≠ 0 ∧ (variant = 1 ∨ action = 2) then DensifyPrune.v4zero F
        else (inScale.getD srcIdx default).v⟩ : DensifyPrune.OptVec4 F) := by
  unfold DensifyPrune.optScaleWriteSlot
  by_cases hr : resetNewState ≠ 0 ∧ (variant = 1 ∨ action = 2) <;>
    by_cases ha : action = 2
  · simp only [if_pos hr, if_pos ha]
    try rfl
  · simp only [if_pos hr, if_neg ha]
    try rfl
  · simp only [if_neg hr, if_pos ha]
    try rfl
  · simp only [if_neg hr, if_neg ha]
    try rfl

/-- C5 (amended): for every input Gaussian with count > 0 and every emitted
slot `off_i + s` (`s < count_i`), the optimizer-state scatters behave as
follows, with a slot "new" iff it is slot 1 (clone slot 1 / split slot 1) or
its action is SPLIT: the rotation (vec4) scatter copies param and preserves
`(m, v)` unless the slot is new and `reset_new_state` is set (then zeroed);
the SH scatter copies the 48 params and does the same with the 48 `(m, v)`
pairs; the position scatter follows the same `(m, v)` rule and copies param
verbatim on non-new slots (new slots are jittered); the scale scatter follows
the same `(m, v)` rule and shifts split params by `−ln 1.6`; the opacity
scatter clamps param in sigmoid space and zeroes `(m, v)` on every emitted
slot, regardless of `reset_new_state`. -/
theorem opt_scatter_state_policy {F : Type} [LinearOrderedField F] (ops : WgslOps F)
    (resetNewState : ℕ) (counts actions : List ℕ) (inPos inRot inScale : List (DensifyPrune.OptVec4 F))
    (inParamSH : List F) (inStateSH : List (F × F)) (inOpacity : List (DensifyPrune.OptFloat F))
    (hc : ∀ c ∈ counts, c ≤ 2) (i : ℕ) (hi : i < counts.length) (s : ℕ)
    (hs : s < counts.getD i 0) :
    DensifyPrune.scatterOptVec4Out resetNewState inRot counts (ListUtil.scanExcl counts)
        actions counts.sum ((counts.take i).sum + s) =
      some (if resetNewState ≠ 0 ∧ (s = 1 ∨ actions.getD i 0 = 2) then
          ⟨(inRot.getD i default).param, DensifyPrune.v4zero F, DensifyPrune.v4zero F⟩
        else inRot.getD i default) ∧
    DensifyPrune.scatterOptSHOut resetNewState inParamSH inStateSH counts
        (ListUtil.scanExcl counts) actions counts.sum ((counts.take i).sum + s) =
      some (if resetNewState ≠ 0 ∧ (s = 1 ∨ actions.getD i 0 = 2) then
          ((fun k => inParamSH.getD (i * 48 + k) 0), fun _ => (0, 0))
        else ((fun k => inParamSH.getD (i * 48 + k) 0),
          fun k => inStateSH.getD (i * 48 + k) (0, 0))) ∧
    (DensifyPrune.scatterOptPosOut ops resetNewState inPos inRot inScale counts
        (ListUtil.scanExcl counts) actions counts.sum ((counts.take i).sum + s)).map
        DensifyPrune.OptVec4.m =
      some (if resetNewState ≠ 0 ∧ (s = 1 ∨ actions.getD i 0 = 2) then
          DensifyPrune.v4zero F else (inPos.getD i default).m) ∧
    (DensifyPrune.scatterOptPosOut ops resetNewState inPos inRot inScale counts
        (ListUtil.scanExcl counts) actions counts.sum ((counts.take i).sum + s)).map
        DensifyPrune.OptVec4.v =
      some (if resetNewState ≠ 0 ∧ (s = 1 ∨ actions.getD i 0 = 2) then
          DensifyPrune.v4zero F else (inPos.getD i default).v) ∧
    (¬(s = 1 ∨ actions.getD i 0 = 2) →
      (DensifyPrune.scatterOptPosOut ops resetNewState inPos inRot inScale counts
          (ListUtil.scanExcl counts) actions counts.sum ((counts.take i).sum + s)).map
          DensifyPrune.OptVec4.param =
        some (inPos.getD i default).param) ∧
    DensifyPrune.scatterOptScaleOut resetNewState inScale counts
        (ListUtil.scanExcl counts) actions counts.sum ((counts.take i).sum + s) =
      some (if resetNewState ≠ 0 ∧ (s = 1 ∨ actions.getD i 0 = 2) then
          ⟨if actions.getD i 0 = 2 then
              ⟨(inScale.getD i default).param.x - DensifyPrune.lnOnePoint6 F,
                (inScale.getD i default).param.y - DensifyPrune.lnOnePoint6 F,
                (inScale.getD i default).param.z - DensifyPrune.lnOnePoint6 F,
                (inScale.getD i default).param.w⟩
            else (inScale.getD i default).param,
            DensifyPrune.v4zero F, DensifyPrune.v4zero F⟩
        else
          ⟨if actions.getD i 0 = 2 then
              ⟨(inScale.getD i default).param.x - DensifyPrune.lnOnePoint6 F,
                (inScale.getD i default).param.y - DensifyPrune.lnOnePoint6 F,
                (inScale.getD i default).param.z - DensifyPrune.lnOnePoint6 F,
                (inScale.getD i default).param.w⟩
            else (inScale.getD i default).param,
            (inScale.getD i default).m, (inScale.getD i default).v⟩) ∧
    DensifyPrune.scatterOptFloatOut ops inOpacity counts (ListUtil.scanExcl counts)
        actions counts.sum ((counts.take i).sum + s) =
      some ⟨if DensifyPrune.opacityMax F <
            sigmoid ops (inOpacity.getD i default).param then
          DensifyPrune.opacityMaxRaw F else (inOpacity.getD i default).param, 0, 0⟩ := by
  have hrot := Scatter.scatterOut_at counts (fun idx variant _dst =>
    DensifyPrune.optVec4WriteSlot resetNewState inRot idx
      (variant = 1 ∨ actions.getD idx 0 = 2)) hc i hi s hs
  have hsh := Scatter.scatterOut_at counts (fun idx variant _dst =>
    DensifyPrune.optSHWriteSlot resetNewState inParamSH inStateSH idx
      (variant = 1 ∨ actions.getD idx 0 = 2)) hc i hi s hs
  have hpos := Scatter.scatterOut_at counts (fun idx variant dst =>
    DensifyPrune.optPosWriteSlot ops resetNewState inPos inRot inScale dst idx variant
      (actions.getD idx 0)) hc i hi s hs
  have hscale := Scatter.scatterOut_at counts (fun idx variant _dst =>
    DensifyPrune.optScaleWriteSlot resetNewState inScale idx variant
      (actions.getD idx 0)) hc i hi s hs
  have hopac := Scatter.scatterOut_at counts (fun idx _variant _dst =>
    DensifyPrune.optFloatWriteSlot ops inOpacity idx) hc i hi s hs
  refine ⟨?_, ?_, ?_, ?_, ?_, ?_, ?_⟩
  · rw [DensifyPrune.scatterOptVec4Out, hrot]
    rw [show ((fun idx variant _dst =>
        DensifyPrune.optVec4WriteSlot resetNewState inRot idx
          (variant = 1 ∨ actions.getD idx 0 = 2)) i s ((counts.take i).sum + s)) =
      DensifyPrune.optVec4WriteSlot resetNewState inRot i
        (s = 1 ∨ actions.getD i 0 = 2) from rfl, optVec4WriteSlot_eq]
  · rw [DensifyPrune.scatterOptSHOut, hsh]
    show some (DensifyPrune.optSHWriteSlot resetNewState inParamSH inStateSH i
      (s = 1 ∨ actions.getD i 0 = 2)) = _
    unfold DensifyPrune.optSHWriteSlot
    by_cases hr : resetNewState ≠ 0 ∧ (s = 1 ∨ actions.getD i 0 = 2)
    · rw [if_pos hr]
    · rw [if_neg hr]
  · rw [DensifyPrune.scatterOptPosOut, hpos]
    show some ((DensifyPrune.optPosWriteSlot ops resetNewState inPos inRot inScale
      ((counts.take i).sum + s) i s (actions.getD i 0)).m) = _
    rw [optPosWriteSlot_m]
  · rw [DensifyPrune.scatterOptPosOut, hpos]
    show some ((DensifyPrune.optPosWriteSlot ops resetNewState inPos inRot inScale
      ((counts.take i).sum + s) i s (actions.getD i 0)).v) = _
    rw [optPosWriteSlot_v]
  · intro hnew
    rw [DensifyPrune.scatterOptPosOut, hpos]
    show some ((DensifyPrune.optPosWriteSlot ops resetNewState inPos inRot inScale
      ((counts.take i).sum + s) i s (actions.getD i 0)).param) = _
    rw [optPosWriteSlot_param_notNew ops resetNewState inPos inRot inScale _ _ _ _ hnew]
  · rw [DensifyPrune.scatterOptScaleOut, hscale]
    show some (DensifyPrune.optScaleWriteSlot resetNewState inScale i s
      (actions.getD i 0)) = _
    rw [optScaleWriteSlot_eq]
    by_cases hr : resetNewState ≠ 0 ∧ (s = 1 ∨ actions.getD i 0 = 2)
    · rw [if_pos hr, if_pos hr, if_pos hr]
    · rw [if_neg hr, if_neg hr, if_neg hr]
  · rw [DensifyPrune.scatterOptFloatOut, hopac]
    rfl

/-- Witness for `opt_scatter_state_policy` at one KEEP input over `ℚ`. -/
theorem opt_scatter_state_policy_witness :
    (∀ c ∈ [1], c ≤ 2) ∧ 0 < ([1] : List ℕ).length ∧ 0 < ([1] : List ℕ).getD 0 0 ∧
      DensifyPrune.scatterOptFloatOut opsQ ([⟨0, 1, 1⟩] : List (DensifyPrune.OptFloat ℚ))
          [1] (ListUtil.scanExcl [1]) [0] ([1] : List ℕ).sum
          ((([1] : List ℕ).take 0).sum + 0) =
        some ⟨if DensifyPrune.opacityMax ℚ <
              sigmoid opsQ (([⟨0, 1, 1⟩] : List (DensifyPrune.OptFloat ℚ)).getD 0
                default).param then
            DensifyPrune.opacityMaxRaw ℚ
          else (([⟨0, 1, 1⟩] : List (DensifyPrune.OptFloat ℚ)).getD 0 default).param,
          0, 0⟩ := by
  refine ⟨by decide, by decide, by decide, ?_⟩
  exact (opt_scatter_state_policy opsQ 0 [1] [0] [] [] [] [] [] [⟨0, 1, 1⟩]
    (by decide) 0 (by decide) 0 (by decide)).2.2.2.2.2.2

/-!
## Adam optimizer step (`densify-prune-scatter-opt-sh.wgsl` bundle, Adam
shader `main`, and `adam_step` lines 110-122)

The Adam shader runs once per Gaussian with `tile_counts[idx] > 0` and applies
`adam_step` to every scalar component of every parameter group; the rotation
group is renormalized to a unit quaternion after the step.  `f32` arithmetic
is idealized over `ℝ` (`sqrt := Real.sqrt`).
-/

namespace Adam

/-- `adam_step(param, grad, m, v, lr)`: returns
`(param_new, m_new, v_new)`. -/
noncomputable def adamStep (beta1 beta2 eps param grad m v lr : ℝ) : ℝ × ℝ × ℝ :=
  let mNew := beta1 * m + (1 - beta1) * grad
  let vNew := beta2 * v + (1 - beta2) * grad * grad
  let step := -lr * mNew / (Real.sqrt vNew + eps)
  (param + step, mNew, vNew)

/-- Rotation block of the Adam shader `main` (lines 170-187): per-component
`adam_step`, then `normalize` of the stepped quaternion; returns
`(param, m, v)` as written back to `opt_rot[idx]`. -/
noncomputable def rotationStep (beta1 beta2 eps lrRot : ℝ) (r m v grad : Vec4 ℝ) :
    Vec4 ℝ × Vec4 ℝ × Vec4 ℝ :=
  let resX := adamStep beta1 beta2 eps r.x grad.x m.x v.x lrRot
  let resY := adamStep beta1 beta2 eps r.y grad.y m.y v.y lrRot
  let resZ := adamStep beta1 beta2 eps r.z grad.z m.z v.z lrRot
  let resW := adamStep beta1 beta2 eps r.w grad.w m.w v.w lrRot
  let stepped : Vec4 ℝ := ⟨resX.1, resY.1, resZ.1, resW.1⟩
  let len := Real.sqrt (Vec4.dot stepped stepped)
  let newRot : Vec4 ℝ := ⟨stepped.x / len, stepped.y / len, stepped.z / len, stepped.w / len⟩
  (newRot, ⟨resX.2.1, resY.2.1, resZ.2.1, resW.2.1⟩,
    ⟨resX.2.2, resY.2.2, resZ.2.2, resW.2.2⟩)

end Adam

/-- C6 counterexample: a single Adam step with gradient 0 does not leave the
parameter unchanged in general.  With `β₁ = β₂ = 1/2`, `ε = 1`, `lr = 1`,
`param = 0`, `m = 1`, `v = 0`, the zero-gradient step moves the parameter to
`-1/2`. -/
theorem adam_zero_grad_counterexample :
    (Adam.adamStep (1 / 2) (1 / 2) 1 0 0 1 0 1).1 ≠ 0 := by
  unfold Adam.adamStep
  simp only [mul_zero, mul_one, add_zero, zero_add, zero_mul, sub_zero]
  rw [Real.sqrt_zero]
  norm_num

/-- C6 (amended): with gradient identically 0, a single Adam step updates the
moments to `m ← β₁·m` and `v ← β₂·v`, and moves the parameter by
`−lr·β₁·m/(√(β₂·v) + ε)` — so the parameter is unchanged exactly when the
first moment is already 0; the rotation group is additionally renormalized,
so a unit quaternion with zero first moment is also unchanged. -/
theorem adam_zero_grad_moment_decay (beta1 beta2 eps lr p m v : ℝ) :
    (Adam.adamStep beta1 beta2 eps p 0 m v lr).2.1 = beta1 * m ∧
    (Adam.adamStep beta1 beta2 eps p 0 m v lr).2.2 = beta2 * v ∧
    (Adam.adamStep beta1 beta2 eps p 0 m v lr).1 =
      p - lr * (beta1 * m) / (Real.sqrt (beta2 * v) + eps) ∧
    (m = 0 → (Adam.adamStep beta1 beta2 eps p 0 m v lr).1 = p) ∧
    (∀ r vv : Vec4 ℝ, Vec4.dot r r = 1 →
      (Adam.rotationStep beta1 beta2 eps lr r (DensifyPrune.v4zero ℝ) vv
        (DensifyPrune.v4zero ℝ)).1 = r) := by
  refine ⟨by simp [Adam.adamStep], by simp [Adam.adamStep], ?_, ?_, ?_⟩
  · simp only [Adam.adamStep, mul_zero, add_zero]
    ring
  · intro hm
    simp only [Adam.adamStep, hm, mul_zero, add_zero, zero_div]
  · intro r vv hr
    have hstep : ∀ c vc : ℝ, (Adam.adamStep beta1 beta2 eps c 0 0 vc lr).1 = c := by
      intro c vc
      simp [Adam.adamStep]
    have hr2 : r.x * r.x + r.y * r.y + r.z * r.z + r.w * r.w = 1 := by
      simpa [Vec4.dot] using hr
    simp only [Adam.rotationStep, DensifyPrune.v4zero, Vec4.dot, hstep, hr2, Real.sqrt_one]
    cases r
    simp

/-- Witness for `adam_zero_grad_moment_decay` at `β₁ = β₂ = 1/2`, `ε = 1`,
`lr = 1`, `p = 5`, `m = 0`, `v = 0` and the unit quaternion `(1,0,0,0)`. -/
theorem adam_zero_grad_moment_decay_witness :
    ((0 : ℝ) = 0) ∧ Vec4.dot (⟨1, 0, 0, 0⟩ : Vec4 ℝ) ⟨1, 0, 0, 0⟩ = 1 ∧
      (Adam.adamStep (1 / 2) (1 / 2) 1 5 0 0 0 1).1 = 5 ∧
      (Adam.rotationStep (1 / 2) (1 / 2) 1 1 (⟨1, 0, 0, 0⟩ : Vec4 ℝ)
        (DensifyPrune.v4zero ℝ) (DensifyPrune.v4zero ℝ) (DensifyPrune.v4zero ℝ)).1 =
        ⟨1, 0, 0, 0⟩ := by
  have hdot : Vec4.dot (⟨1, 0, 0, 0⟩ : Vec4 ℝ) ⟨1, 0, 0, 0⟩ = 1 := by
    simp [Vec4.dot]
  have h := adam_zero_grad_moment_decay (1 / 2) (1 / 2) 1 1 5 0 0
  exact ⟨rfl, hdot, h.2.2.2.1 rfl, h.2.2.2.2 ⟨1, 0, 0, 0⟩ (DensifyPrune.v4zero ℝ) hdot⟩

/-!
## Depth re-encoding (`tiled-forward.wgsl`, `float_to_ordered_uint`,
lines 121-125)

The shader bit-casts an f32 depth to u32 and applies a sign-flip twiddle.
IEEE-754 binary32 values are modelled by their 32-bit pattern: sign bit 31,
exponent bits 30..23, mantissa bits 22..0; a pattern is finite when its
exponent field is not 255, and its exact rational value (scaled by nothing —
subnormals included) is `f32Val` below.
-/

namespace TiledForward

/-- Value of the magnitude bits `mag = e·2^23 + m` of a binary32 pattern,
scaled by `2^149` so it is a natural number: subnormals (`e = 0`) give `m`,
normals give `(2^23 + m)·2^(e-1)`. -/
def valMagNum (n : ℕ) : ℕ :=
  if n / 2 ^ 23 = 0 then n % 2 ^ 23
  else (2 ^ 23 + n % 2 ^ 23) * 2 ^ (n / 2 ^ 23 - 1)

/-- Exact rational value of a binary32 bit pattern. -/
def f32Val (b : ℕ) : ℚ :=
  if b < 2 ^ 31 then (valMagNum b : ℚ) / 2 ^ 149
  else -((valMagNum (b - 2 ^ 31) : ℚ) / 2 ^ 149)

/-- A binary32 pattern is finite when its exponent field is not all-ones. -/
def f32IsFinite (b : ℕ) : Prop := b < 2 ^ 32 ∧ (b >>> 23) % 2 ^ 8 ≠ 255

instance (b : ℕ) : Decidable (f32IsFinite b) := by unfold f32IsFinite; infer_instance

/-- `float_to_ordered_uint` of `tiled-forward.wgsl` on the bit pattern:
`mask = select(0x80000000, 0xFFFFFFFF, sign set); bits ^ mask`. -/
def floatToOrderedUint (bits : ℕ) : ℕ :=
  let mask := if bits &&& 0x80000000 ≠ 0 then 0xFFFFFFFF else 0x80000000
  bits ^^^ mask

theorem valMagNum_strictMono : StrictMono valMagNum := by
  apply strictMono_nat_of_lt_succ
  intro n
  have hdm := Nat.div_add_mod n (2 ^ 23)
  have hmlt : n % 2 ^ 23 < 2 ^ 23 := Nat.mod_lt n (by norm_num)
  by_cases hm : n % 2 ^ 23 + 1 < 2 ^ 23
  · have he : (n + 1) / 2 ^ 23 = n / 2 ^ 23 := by omega
    have hm2 : (n + 1) % 2 ^ 23 = n % 2 ^ 23 + 1 := by omega
    unfold valMagNum
    rw [he, hm2]
    by_cases he0 : n / 2 ^ 23 = 0
    · rw [if_pos he0, if_pos he0]
      omega
    · rw [if_neg he0, if_neg he0]
      exact mul_lt_mul_of_pos_right (by omega) (pow_pos (by norm_num) _)
  · have hm3 : n % 2 ^ 23 = 2 ^ 23 - 1 := by omega
    have he : (n + 1) / 2 ^ 23 = n / 2 ^ 23 + 1 := by omega
    have hm2 : (n + 1) % 2 ^ 23 = 0 := by omega
    unfold valMagNum
    rw [he, hm2]
    rw [if_neg (by omega : ¬(n / 2 ^ 23 + 1 = 0))]
    by_cases he0 : n / 2 ^ 23 = 0
    · rw [if_pos he0, he0, hm3]
      norm_num
    · rw [if_neg he0, hm3]
      have he1 : n / 2 ^ 23 + 1 - 1 = (n / 2 ^ 23 - 1) + 1 := by omega
      have hps : (2 : ℕ) ^ (n / 2 ^ 23 - 1 + 1) = 2 ^ (n / 2 ^ 23 - 1) * 2 := pow_succ 2 _
      rw [he1, hps]
      have hX : (0:ℕ) < 2 ^ (n / 2 ^ 23 - 1) := pow_pos (by norm_num) _
      nlinarith [hX]

theorem xor_allones32 (b : ℕ) (hb : b < 2 ^ 32) :
    b ^^^ (2 ^ 32 - 1) = 2 ^ 32 - (b + 1) := by
  apply Nat.eq_of_testBit_eq
  intro i
  rw [Nat.testBit_xor, Nat.testBit_two_pow_sub_one, Nat.testBit_two_pow_sub_succ hb]
  by_cases hi : i < 32
  · cases hbit : b.testBit i <;> simp [hi, hbit]
  · have hble : b < 2 ^ i :=
      lt_of_lt_of_le hb (Nat.pow_le_pow_right (by norm_num) (by omega))
    simp [hi, Nat.testBit_lt_two_pow hble]

theorem xor_signbit (b : ℕ) (hb : b < 2 ^ 31) : b ^^^ 2 ^ 31 = b + 2 ^ 31 := by
  have h1 : b + 2 ^ 31 = 2 ^ 32 - ((2 ^ 31 - 1 - b) + 1) := by omega
  apply Nat.eq_of_testBit_eq
  intro i
  rw [h1, Nat.testBit_xor, Nat.testBit_two_pow,
    Nat.testBit_two_pow_sub_succ (show 2 ^ 31 - 1 - b < 2 ^ 32 by omega),
    show (2 : ℕ) ^ 31 - 1 - b = 2 ^ 31 - (b + 1) by omega,
    Nat.testBit_two_pow_sub_succ hb]
  rcases lt_trichotomy i 31 with hi | hi | hi
  · cases hbit : b.testBit i <;>
      simp [hbit, show (31 : ℕ) ≠ i by omega, show i < 32 by omega, hi]
  · subst hi
    simp [Nat.testBit_lt_two_pow hb]
  · have hble : b < 2 ^ i :=
      lt_of_lt_of_le hb (Nat.pow_le_pow_right (by norm_num) (by omega))
    simp [show (31 : ℕ) ≠ i by omega, show ¬(i < 32) by omega,
      Nat.testBit_lt_two_pow hble, show ¬(i < 31) by omega]

theorem and_signbit_ne_zero_iff (b : ℕ) (hb : b < 2 ^ 32) :
    b &&& 0x80000000 ≠ 0 ↔ 2 ^ 31 ≤ b := by
  have h1 : (0x80000000 : ℕ) = 2 ^ 31 := by norm_num
  rw [h1]
  have hbit : b.testBit 31 = decide (b / 2 ^ 31 % 2 = 1) := Nat.testBit_to_div_mod
  have hdiv : b / 2 ^ 31 % 2 = 1 ↔ 2 ^ 31 ≤ b := by omega
  constructor
  · intro hne
    obtain ⟨i, hi⟩ := Nat.ne_zero_implies_bit_true hne
    rw [Nat.testBit_and, Nat.testBit_two_pow] at hi
    have h31 : (31 : ℕ) = i := by
      by_contra hne31
      simp [hne31] at hi
    subst h31
    apply hdiv.mp
    rw [hbit] at hi
    simpa using Bool.and_elim_left hi
  · intro hge h0
    have hfalse : (b &&& 2 ^ 31).testBit 31 = false := by
      rw [h0]
      simp
    rw [Nat.testBit_and, Nat.testBit_two_pow] at hfalse
    simp only [decide_eq_true_eq, Bool.and_eq_false_iff] at hfalse
    rw [hbit] at hfalse
    rcases hfalse with hfalse | hfalse
    case inr => simp at hfalse
    · have : ¬(b / 2 ^ 31 % 2 = 1) := by simpa using hfalse
      exact this (hdiv.mpr hge)

end TiledForward

/-- C7: the depth re-encoding `float_to_ordered_uint` is strictly monotone on
finite f32 values: if bit patterns `a`, `b` are finite and the f32 value of
`a` is less than that of `b`, then `float_to_ordered_uint a <
float_to_ordered_uint b` as u32. -/
theorem float_to_ordered_uint_strict_mono (a b : ℕ)
    (ha : TiledForward.f32IsFinite a) (hb : TiledForward.f32IsFinite b)
    (hab : TiledForward.f32Val a < TiledForward.f32Val b) :
    TiledForward.floatToOrderedUint a < TiledForward.floatToOrderedUint b := by
  obtain ⟨ha32, -⟩ := ha
  obtain ⟨hb32, -⟩ := hb
  have haS := TiledForward.and_signbit_ne_zero_iff a ha32
  have hbS := TiledForward.and_signbit_ne_zero_iff b hb32
  have hFF : (0xFFFFFFFF : ℕ) = 2 ^ 32 - 1 := by norm_num
  have h80 : (0x80000000 : ℕ) = 2 ^ 31 := by norm_num
  have hpos : (0 : ℚ) < 2 ^ 149 := by positivity
  unfold TiledForward.floatToOrderedUint
  by_cases hsa : 2 ^ 31 ≤ a <;> by_cases hsb : 2 ^ 31 ≤ b
  · -- both negative: value order reverses the magnitude order
    rw [if_pos (haS.mpr hsa), if_pos (hbS.mpr hsb), hFF,
      TiledForward.xor_allones32 a ha32, TiledForward.xor_allones32 b hb32]
    unfold TiledForward.f32Val at hab
    rw [if_neg (not_lt.mpr hsa), if_neg (not_lt.mpr hsb), neg_lt_neg_iff] at hab
    have hmul := mul_lt_mul_of_pos_right hab hpos
    rw [div_mul_cancel₀ _ (ne_of_gt hpos), div_mul_cancel₀ _ (ne_of_gt hpos)] at hmul
    have hlt : TiledForward.valMagNum (b - 2 ^ 31) < TiledForward.valMagNum (a - 2 ^ 31) := by
      exact_mod_cast hmul
    have := TiledForward.valMagNum_strictMono.lt_iff_lt.mp hlt
    omega
  · -- a negative, b non-negative: ordered a < 2^31 ≤ ordered b
    rw [if_pos (haS.mpr hsa), if_neg (fun hc => hsb (hbS.mp hc)), hFF, h80,
      TiledForward.xor_allones32 a ha32,
      TiledForward.xor_signbit b (by omega)]
    omega
  · -- a non-negative, b negative: contradicts value order
    exfalso
    unfold TiledForward.f32Val at hab
    rw [if_pos (by omega : a < 2 ^ 31), if_neg (not_lt.mpr hsb)] at hab
    have h1 : (0 : ℚ) ≤ (TiledForward.valMagNum a : ℚ) / 2 ^ 149 :=
      div_nonneg (Nat.cast_nonneg _) (le_of_lt hpos)
    have h2 : (0 : ℚ) ≤ (TiledForward.valMagNum (b - 2 ^ 31) : ℚ) / 2 ^ 149 :=
      div_nonneg (Nat.cast_nonneg _) (le_of_lt hpos)
    linarith
  · -- both non-negative: magnitude order is preserved
    rw [if_neg (fun hc => hsa (haS.mp hc)), if_neg (fun hc => hsb (hbS.mp hc)), h80,
      TiledForward.xor_signbit a (by omega), TiledForward.xor_signbit b (by omega)]
    unfold TiledForward.f32Val at hab
    rw [if_pos (by omega : a < 2 ^ 31), if_pos (by omega : b < 2 ^ 31)] at hab
    have hmul := mul_lt_mul_of_pos_right hab hpos
    rw [div_mul_cancel₀ _ (ne_of_gt hpos), div_mul_cancel₀ _ (ne_of_gt hpos)] at hmul
    have hlt : TiledForward.valMagNum a < TiledForward.valMagNum b := by
      exact_mod_cast hmul
    have := TiledForward.valMagNum_strictMono.lt_iff_lt.mp hlt
    omega

/-- Witness for `float_to_ordered_uint_strict_mono` at the patterns of `+0.0`
(bits 0) and the smallest positive subnormal (bits 1). -/
theorem float_to_ordered_uint_strict_mono_witness :
    TiledForward.f32IsFinite 0 ∧ TiledForward.f32IsFinite 1 ∧
      TiledForward.f32Val 0 < TiledForward.f32Val 1 ∧
      TiledForward.floatToOrderedUint 0 < TiledForward.floatToOrderedUint 1 := by
  have hv : TiledForward.f32Val 0 < TiledForward.f32Val 1 := by
    norm_num [TiledForward.f32Val, TiledForward.valMagNum]
  exact ⟨by decide, by decide, hv,
    float_to_ordered_uint_strict_mono 0 1 (by decide) (by decide) hv⟩

/-!
## Host queue gate (`queue-gate.ts`, class `QueueGate`)

The gate tracks `inFlight` and a FIFO of capacity waiters.  `submit` first
awaits capacity: if `inFlight < maxInFlight` it submits immediately
(`submitInternal`, which increments `inFlight`); otherwise it pushes a
resolver onto `capacityWaiters` and suspends.  When a submission completes,
`done.finally` decrements `inFlight` and calls `pumpWaiters`, whose loop
`while (inFlight < maxInFlight && capacityWaiters.length > 0)` shifts and
resolves waiters; resolving a promise only schedules the suspended `submit`
continuation as a microtask, so `inFlight` does not change during the loop
and the loop drains *every* waiter whenever one slot is free.  A resumed
waiter later runs `submitInternal` unconditionally.  States are
`(inFlight, capacityWaiters, resumable)` where `resumable` counts waiters
that have been resolved but whose continuation has not run yet; the
constructor default is `maxInFlight = 2`. -/

namespace QueueGate

/-- Host-visible state of a `QueueGate`. -/
structure GateState where
  inFlight : ℕ
  capacityWaiters : ℕ
  resumable : ℕ
deriving DecidableEq

/-- One atomic host event of the gate. -/
inductive Step (maxInFlight : ℕ) : GateState → GateState → Prop
  | submitNow (s : GateState) (h : s.inFlight < maxInFlight) :
      Step maxInFlight s ⟨s.inFlight + 1, s.capacityWaiters, s.resumable⟩
  | submitWait (s : GateState) (h : ¬s.inFlight < maxInFlight) :
      Step maxInFlight s ⟨s.inFlight, s.capacityWaiters + 1, s.resumable⟩
  | complete (s : GateState) (h : 0 < s.inFlight) :
      Step maxInFlight s
        (if s.inFlight - 1 < maxInFlight then
          ⟨s.inFlight - 1, 0, s.resumable + s.capacityWaiters⟩
        else ⟨s.inFlight - 1, s.capacityWaiters, s.resumable⟩)
  | resume (s : GateState) (h : 0 < s.resumable) :
      Step maxInFlight s ⟨s.inFlight + 1, s.capacityWaiters, s.resumable - 1⟩

/-- States reachable from a freshly constructed gate. -/
inductive Reachable (maxInFlight : ℕ) : GateState → Prop
  | init : Reachable maxInFlight ⟨0, 0, 0⟩
  | step {s t : GateState} : Reachable maxInFlight s → Step maxInFlight s t →
      Reachable maxInFlight t

end QueueGate

/-- C9 is a code bug: with the default cap `maxInFlight = 2`, the state with
`inFlight = 3` is reachable — four `submit` calls (two submit, two suspend)
followed by one completion; `pumpWaiters` resolves *both* waiters while only
one slot is free, and each resumed `submit` then increments `inFlight`
without re-checking capacity.  This theorem exhibits the violating trace. -/
theorem queue_gate_exceeds_cap :
    QueueGate.Reachable 2 ⟨3, 0, 0⟩ ∧ 2 < 3 := by
  constructor
  · have h0 : QueueGate.Reachable 2 ⟨0, 0, 0⟩ := QueueGate.Reachable.init
    have h1 : QueueGate.Reachable 2 ⟨1, 0, 0⟩ :=
      h0.step (QueueGate.Step.submitNow _ (by decide))
    have h2 : QueueGate.Reachable 2 ⟨2, 0, 0⟩ :=
      h1.step (QueueGate.Step.submitNow _ (by decide))
    have h3 : QueueGate.Reachable 2 ⟨2, 1, 0⟩ :=
      h2.step (QueueGate.Step.submitWait _ (by decide))
    have h4 : QueueGate.Reachable 2 ⟨2, 2, 0⟩ :=
      h3.step (QueueGate.Step.submitWait _ (by decide))
    have h5 : QueueGate.Reachable 2 ⟨1, 0, 2⟩ := by
      have := h4.step (QueueGate.Step.complete _ (by decide))
      simpa using this
    have h6 : QueueGate.Reachable 2 ⟨2, 0, 1⟩ :=
      h5.step (QueueGate.Step.resume _ (by decide))
    exact h6.step (QueueGate.Step.resume _ (by decide))
  · decide

/-!
## Post-scatter opacity clamp (C10)

Both `copy_point` (`part_002`) and the opacity `write_slot` (`part_004`)
compute `select(raw, OPACITY_MAX_RAW, sigmoid(raw) > OPACITY_MAX)` on the
source opacity logit.  `OPACITY_MAX_RAW = 1.38629436112` is the decimal
rendering of `ln 4` (whose sigmoid is exactly `4/5`) to 12 significant
digits; since the stored constant differs from `ln 4` by less than `10⁻¹¹`,
the exact real sigmoid of the stored logit is below `0.81` (the claim's
"at most 0.8 up to f16 rounding" — f16 rounding near 0.8 is ≈ 5·10⁻⁴,
far above the 2·10⁻¹³ by which exact `0.8` is exceeded).
-/

namespace DensifyPrune

variable {F : Type} [LinearOrderedField F]

/-- The opacity clamp `select(raw, OPACITY_MAX_RAW, op > OPACITY_MAX)` shared
by `part_002` (`copy_point`) and `part_004` (`write_slot`). -/
def clampOpacityRaw (ops : WgslOps F) (raw : F) : F :=
  if opacityMax F < sigmoid ops raw then opacityMaxRaw F else raw

end DensifyPrune

/-- Numeric core of C10: the real sigmoid of the stored clamp constant
`1.38629436112` is at most `0.81`. -/
theorem sigmoid_opacityMaxRaw_le (ops : WgslOps ℝ) (hexp : ops.exp = Real.exp) :
    sigmoid ops (DensifyPrune.opacityMaxRaw ℝ) ≤ 81 / 100 := by
  unfold sigmoid DensifyPrune.opacityMaxRaw
  rw [hexp]
  set c : ℝ := 138629436112 / 100000000000 with hc
  have hexp02 : Real.exp (1 / 5 : ℝ) ≤ 5 / 4 := by
    have h := Real.add_one_le_exp (-(1 / 5) : ℝ)
    have h45 : (4 / 5 : ℝ) ≤ Real.exp (-(1 / 5)) := by linarith
    rw [Real.exp_neg] at h45
    have hpos2 : (0 : ℝ) < Real.exp (1 / 5) := Real.exp_pos _
    have hmul := mul_le_mul_of_nonneg_right h45 (le_of_lt hpos2)
    rw [inv_mul_cancel₀ (ne_of_gt hpos2)] at hmul
    linarith
  have hexp04 : Real.exp (2 / 5 : ℝ) ≤ 25 / 16 := by
    have hsplit : Real.exp (2 / 5 : ℝ) = Real.exp (1 / 5) * Real.exp (1 / 5) := by
      rw [← Real.exp_add]
      norm_num
    rw [hsplit]
    nlinarith [hexp02, Real.exp_pos (1 / 5 : ℝ)]
  have hexpc : Real.exp c ≤ 81 / 19 := by
    have hc14 : c ≤ (7 / 5 : ℝ) := by rw [hc]; norm_num
    have h14 : Real.exp (7 / 5 : ℝ) = Real.exp 1 * Real.exp (2 / 5) := by
      rw [← Real.exp_add]
      norm_num
    have he1 : Real.exp 1 < 2.7182818286 := Real.exp_one_lt_d9
    have hmono : Real.exp c ≤ Real.exp (7 / 5) := Real.exp_le_exp.mpr hc14
    rw [h14] at hmono
    nlinarith [hexp04, Real.exp_pos (1 : ℝ), Real.exp_pos ((2 : ℝ) / 5), he1, hmono]
  have hcpos : (0 : ℝ) < Real.exp c := Real.exp_pos c
  have h19 : (19 / 81 : ℝ) ≤ Real.exp (-c) := by
    rw [Real.exp_neg]
    have hinv := inv_le_inv_of_le hcpos hexpc
    calc (19 / 81 : ℝ) = (81 / 19 : ℝ)⁻¹ := by norm_num
      _ ≤ (Real.exp c)⁻¹ := hinv
  have hden : (100 / 81 : ℝ) ≤ 1 + Real.exp (-c) := by linarith
  calc 1 / (1 + Real.exp (-c)) ≤ 1 / (100 / 81) :=
        one_div_le_one_div_of_le (by norm_num) hden
    _ ≤ 81 / 100 := by norm_num

/-- C10: every Gaussian written by the densify/prune scatter — for every
action, KEEP and CLONE included — has a stored opacity logit whose real
sigmoid is at most 0.81 (`0.8` up to rounding of the stored constant), and
any source logit with sigmoid above 0.8 is replaced by the `ln 4` constant
`1.38629436112` in both the packed output (`copy_point`) and the opacity
optimizer parameter (`write_slot`).  The non-verbatim `copy_point` branch
packs `clampOpacityRaw` into the high half of `pos_opacity[1]`; the verbatim
branch is taken only when the source sigmoid is already ≤ 0.8. -/
theorem scatter_output_opacity_bounded (ops : WgslOps ℝ) (hexp : ops.exp = Real.exp)
    (inG : List Gaussian) (inSH : List ℕ) (inOpt : List (DensifyPrune.OptFloat ℝ))
    (dst src variant action : ℕ) :
    (∀ raw : ℝ, sigmoid ops (DensifyPrune.clampOpacityRaw ops raw) ≤ 81 / 100) ∧
    (∀ raw : ℝ, DensifyPrune.opacityMax ℝ < sigmoid ops raw →
      DensifyPrune.clampOpacityRaw ops raw = DensifyPrune.opacityMaxRaw ℝ) ∧
    ((∃ z : ℝ, (DensifyPrune.copyPoint ops inG inSH dst src variant action).1.posOpacity1 =
        ops.pack2x16float (z, DensifyPrune.clampOpacityRaw ops
          (ops.unpack2x16float (inG.getD src default).posOpacity1).2)) ∨
      ((DensifyPrune.copyPoint ops inG inSH dst src variant action).1 =
          inG.getD src default ∧
        ¬(DensifyPrune.opacityMax ℝ < sigmoid ops
          (ops.unpack2x16float (inG.getD src default).posOpacity1).2))) ∧
    DensifyPrune.optFloatWriteSlot ops inOpt src =
      ⟨DensifyPrune.clampOpacityRaw ops (inOpt.getD src default).param, 0, 0⟩ := by
  refine ⟨?_, ?_, ?_, rfl⟩
  · intro raw
    unfold DensifyPrune.clampOpacityRaw
    by_cases hcl : DensifyPrune.opacityMax ℝ < sigmoid ops raw
    · rw [if_pos hcl]
      exact sigmoid_opacityMaxRaw_le ops hexp
    · rw [if_neg hcl]
      have : sigmoid ops raw ≤ DensifyPrune.opacityMax ℝ := not_lt.mp hcl
      unfold DensifyPrune.opacityMax at this
      linarith
  · intro raw hcl
    unfold DensifyPrune.clampOpacityRaw
    rw [if_pos hcl]
  · simp only [DensifyPrune.copyPoint, DensifyPrune.clampOpacityRaw]
    split
    · next hcond => exact Or.inr ⟨rfl, hcond.2⟩
    · exact Or.inl ⟨_, rfl⟩

/-- The `WgslOps` record over `ℝ` with the genuine transcendental functions
(packing intentionally trivial: no theorem instantiated at `realOpsR`
depends on it). -/
noncomputable def realOpsR : WgslOps ℝ :=
  { exp := Real.exp, log := Real.log, sqrt := Real.sqrt,
    inverseSqrt := fun x => (Real.sqrt x)⁻¹,
    pack2x16float := fun _ => 0, unpack2x16float := fun _ => (0, 0),
    toU32 := fun _ => 0, bitcastToU32 := fun _ => 0 }

/-- Witness for `scatter_output_opacity_bounded`: real `exp`, a source logit
`log 9` whose sigmoid `9/10` exceeds `0.8` and is replaced by the constant,
and the bound evaluated through the theorem. -/
theorem scatter_output_opacity_bounded_witness :
    realOpsR.exp = Real.exp ∧
      DensifyPrune.opacityMax ℝ < sigmoid realOpsR (Real.log 9) ∧
      DensifyPrune.clampOpacityRaw realOpsR (Real.log 9) = DensifyPrune.opacityMaxRaw ℝ ∧
      sigmoid realOpsR (DensifyPrune.clampOpacityRaw realOpsR 0) ≤ 81 / 100 := by
  have h9 : DensifyPrune.opacityMax ℝ < sigmoid realOpsR (Real.log 9) := by
    show (8 : ℝ) / 10 < 1 / (1 + Real.exp (-Real.log 9))
    rw [Real.exp_neg, Real.exp_log (by norm_num : (0 : ℝ) < 9)]
    norm_num
  have h := scatter_output_opacity_bounded realOpsR rfl [] [] [] 0 0 0 0
  exact ⟨rfl, h9, h.2.1 (Real.log 9) h9, h.1 0⟩

/-!
## Forward preprocess (`tiled-forward.wgsl`, `count_main`) and its helpers
(`part_003`: `covariance3D`, `covariance2D`)

WGSL matrices are column-major: `matNxN(v₀, v₁, …)` takes columns, and
`m * v = Σ vᵢ · colᵢ`.
-/

/-- 3×3 WGSL matrix as three columns. -/
structure Mat3 (F : Type) where
  c0 : Vec3 F
  c1 : Vec3 F
  c2 : Vec3 F

/-- 4×4 WGSL matrix as four columns. -/
structure Mat4 (F : Type) where
  c0 : Vec4 F
  c1 : Vec4 F
  c2 : Vec4 F
  c3 : Vec4 F

namespace Mat3

variable {F : Type} [Field F]

/-- Matrix–vector product (`m * v`). -/
def mulVec (m : Mat3 F) (v : Vec3 F) : Vec3 F :=
  v.x • m.c0 + v.y • m.c1 + v.z • m.c2

/-- Matrix product (`a * b`): column `j` is `a * (column j of b)`. -/
def mul (a b : Mat3 F) : Mat3 F :=
  ⟨mulVec a b.c0, mulVec a b.c1, mulVec a b.c2⟩

/-- Transpose. -/
def transpose (m : Mat3 F) : Mat3 F :=
  ⟨⟨m.c0.x, m.c1.x, m.c2.x⟩, ⟨m.c0.y, m.c1.y, m.c2.y⟩, ⟨m.c0.z, m.c1.z, m.c2.z⟩⟩

end Mat3

namespace Mat4

variable {F : Type} [Field F]

/-- Matrix–vector product (`m * v`). -/
def mulVec (m : Mat4 F) (v : Vec4 F) : Vec4 F :=
  v.x • m.c0 + v.y • m.c1 + v.z • m.c2 + v.w • m.c3

end Mat4

namespace TiledForward

variable {F : Type} [LinearOrderedField F]

/-- `covariance3D(quaternion, scale)` (`part_003`, lines 71-94): symmetric
3D covariance as the 6-entry flat array
`(cov[0][0], cov[0][1], cov[0][2], cov[1][1], cov[1][2], cov[2][2])`. -/
def covariance3D (quaternion : Vec4 F) (scale : Vec3 F) :
    F × F × F × F × F × F :=
  let x := quaternion.y
  let y := quaternion.z
  let z := quaternion.w
  let r := quaternion.x
  let R : Mat3 F :=
    ⟨⟨1 - 2 * (y * y + z * z), 2 * (x * y - r * z), 2 * (x * z + r * y)⟩,
     ⟨2 * (x * y + r * z), 1 - 2 * (x * x + z * z), 2 * (y * z - r * x)⟩,
     ⟨2 * (x * z - r * y), 2 * (y * z + r * x), 1 - 2 * (x * x + y * y)⟩⟩
  let S : Mat3 F := ⟨⟨scale.x, 0, 0⟩, ⟨0, scale.y, 0⟩, ⟨0, 0, scale.z⟩⟩
  let M := Mat3.mul S R
  let covMat := Mat3.mul (Mat3.transpose M) M
  (covMat.c0.x, covMat.c0.y, covMat.c0.z, covMat.c1.y, covMat.c1.z, covMat.c2.z)

/-- `covariance2D(cov_3D, mean_view, focal, viewport, viewmatrix)`
(`part_003`, lines 98-136): 2D covariance `(cov[0][0], cov[0][1],
cov[1][1])` with the `+0.3` diagonal stabilizer. -/
def covariance2D (cov3D : F × F × F × F × F × F) (meanView : Vec4 F)
    (focal viewport : F × F) (viewmatrix : Mat4 F) : Vec3 F :=
  let focalX := focal.1
  let focalY := focal.2
  let fovx := viewport.1 * (1 / 2) / focalX
  let fovy := viewport.2 * (1 / 2) / focalY
  let limx := (13 / 10 : F) * fovx
  let limy := (13 / 10 : F) * fovy
  let txtz := meanView.x / meanView.z
  let tytz := meanView.y / meanView.z
  let tx := min limx (max (-limx) txtz) * meanView.z
  let ty := min limy (max (-limy) tytz) * meanView.z
  let tz := meanView.z
  let J : Mat3 F :=
    ⟨⟨focalX / tz, 0, -(focalX * tx) / (tz * tz)⟩,
     ⟨0, focalY / tz, -(focalY * ty) / (tz * tz)⟩,
     ⟨0, 0, 0⟩⟩
  let W : Mat3 F :=
    ⟨⟨viewmatrix.c0.x, viewmatrix.c1.x, viewmatrix.c2.x⟩,
     ⟨viewmatrix.c0.y, viewmatrix.c1.y, viewmatrix.c2.y⟩,
     ⟨viewmatrix.c0.z, viewmatrix.c1.z, viewmatrix.c2.z⟩⟩
  let T := Mat3.mul W J
  let Vrk : Mat3 F :=
    ⟨⟨cov3D.1, cov3D.2.1, cov3D.2.2.1⟩,
     ⟨cov3D.2.1, cov3D.2.2.2.1, cov3D.2.2.2.2.1⟩,
     ⟨cov3D.2.2.1, cov3D.2.2.2.2.1, cov3D.2.2.2.2.2⟩⟩
  let cov := Mat3.mul (Mat3.mul (Mat3.transpose T) (Mat3.transpose Vrk)) T
  ⟨cov.c0.x + 3 / 10, cov.c0.y, cov.c1.y + 3 / 10⟩

/-- Camera uniform block (`CameraUniforms` in `part_003`). -/
structure CameraUniforms (F : Type) where
  view : Mat4 F
  viewInv : Mat4 F
  proj : Mat4 F
  projInv : Mat4 F
  viewport : F × F
  focal : F × F

/-- Render settings consumed by `count_main` (`RenderSettings` plus the
`max_splat_radius_px` field referenced by the tiled pipeline). -/
structure RenderSettings (F : Type) where
  gaussianScaling : F
  shDeg : F
  viewportX : F
  viewportY : F
  pointSizePx : F
  gaussianMode : F
  maxSplatRadiusPx : F

/-- Tile configuration (`TileInfo`). -/
structure TileInfo where
  numTilesX : ℕ
  numTilesY : ℕ
  totalTiles : ℕ
  maxTileEntries : ℕ

/-- `read_f16_coeff` (`tiled-forward.wgsl`, lines 65-73). -/
def readF16Coeff (ops : WgslOps F) (shBuffer : List ℕ) (baseWord elem : ℕ) : F :=
  let wordIdx := baseWord + elem / 2
  let halves := ops.unpack2x16float (shBuffer.getD wordIdx 0)
  if elem % 2 = 0 then halves.1 else halves.2

/-- `sh_coef` (`tiled-forward.wgsl`, lines 76-86). -/
def shCoef (ops : WgslOps F) (shBuffer : List ℕ) (splatIdx cIdx : ℕ) : Vec3 F :=
  let baseWord := splatIdx * 24
  ⟨readF16Coeff ops shBuffer baseWord (cIdx * 3 + 0),
   readF16Coeff ops shBuffer baseWord (cIdx * 3 + 1),
   readF16Coeff ops shBuffer baseWord (cIdx * 3 + 2)⟩

/-- `computeColorFromSH` (`tiled-forward.wgsl`, lines 89-119); the SH basis
constants are the source's decimal literals as exact rationals. -/
def computeColorFromSH (ops : WgslOps F) (shBuffer : List ℕ) (dir : Vec3 F)
    (vIdx shDeg : ℕ) : Vec3 F :=
  let shC0 : F := 28209479177387814 / 100000000000000000
  let shC1 : F := 4886025119029199 / 10000000000000000
  let shC20 : F := 10925484305920792 / 10000000000000000
  let shC22 : F := 31539156525252005 / 100000000000000000
  let shC24 : F := 5462742152960396 / 10000000000000000
  let shC30 : F := -5900435899266435 / 10000000000000000
  let shC31 : F := 2890611442640554 / 1000000000000000
  let shC32 : F := -4570457994644658 / 10000000000000000
  let shC33 : F := 3731763325901154 / 10000000000000000
  let shC35 : F := 1445305721320277 / 1000000000000000
  let x := dir.x
  let y := dir.y
  let z := dir.z
  let r0 : Vec3 F := shC0 • shCoef ops shBuffer vIdx 0
  let r1 : Vec3 F :=
    if 0 < shDeg then
      r0 + (-shC1 * y) • shCoef ops shBuffer vIdx 1 +
        (shC1 * z) • shCoef ops shBuffer vIdx 2 +
        (-shC1 * x) • shCoef ops shBuffer vIdx 3
    else r0
  let r2 : Vec3 F :=
    if 1 < shDeg then
      r1 + (shC20 * (x * y)) • shCoef ops shBuffer vIdx 4 +
        (-shC20 * (y * z)) • shCoef ops shBuffer vIdx 5 +
        (shC22 * (2 * (z * z) - x * x - y * y)) • shCoef ops shBuffer vIdx 6 +
        (-shC20 * (x * z)) • shCoef ops shBuffer vIdx 7 +
        (shC24 * (x * x - y * y)) • shCoef ops shBuffer vIdx 8
    else r1
  let r3 : Vec3 F :=
    if 2 < shDeg then
      r2 + (shC30 * y * (3 * (x * x) - y * y)) • shCoef ops shBuffer vIdx 9 +
        (shC31 * (x * y) * z) • shCoef ops shBuffer vIdx 10 +
        (shC32 * y * (4 * (z * z) - x * x - y * y)) • shCoef ops shBuffer vIdx 11 +
        (shC33 * z * (2 * (z * z) - 3 * (x * x) - 3 * (y * y))) • shCoef ops shBuffer vIdx 12 +
        (shC32 * x * (4 * (z * z) - x * x - y * y)) • shCoef ops shBuffer vIdx 13 +
        (shC35 * z * (x * x - y * y)) • shCoef ops shBuffer vIdx 14 +
        (shC30 * x * (x * x - 3 * (y * y))) • shCoef ops shBuffer vIdx 15
    else r2
  let rOff : Vec3 F := r3 + ⟨1 / 2, 1 / 2, 1 / 2⟩
  ⟨max 0 rOff.x, max 0 rOff.y, max 0 rOff.z⟩

end TiledForward

namespace TiledForward

variable {F : Type} [LinearOrderedField F]

/-- Unpacked quaternion `(w,x,y,z)` of a packed Gaussian
(`count_main`, lines 173-175). -/
def gaussQuat (ops : WgslOps F) (g : Gaussian) : Vec4 F :=
  let rot0 := ops.unpack2x16float g.rot0
  let rot1 := ops.unpack2x16float g.rot1
  ⟨rot0.1, rot0.2, rot1.1, rot1.2⟩

/-- `exp` of the unpacked log-scale (`count_main`, lines 177-179). -/
def gaussScaleExp (ops : WgslOps F) (g : Gaussian) : Vec3 F :=
  let s0 := ops.unpack2x16float g.scale0
  let s1 := ops.unpack2x16float g.scale1
  ⟨ops.exp s0.1, ops.exp s0.2, ops.exp s1.1⟩

/-- Unpacked world position (`count_main`, lines 181-183). -/
def gaussPos (ops : WgslOps F) (g : Gaussian) : Vec3 F :=
  let p0 := ops.unpack2x16float g.posOpacity0
  let p1 := ops.unpack2x16float g.posOpacity1
  ⟨p0.1, p0.2, p1.1⟩

/-- Unpacked opacity logit (`count_main`, line 184). -/
def gaussOpacityRaw (ops : WgslOps F) (g : Gaussian) : F :=
  (ops.unpack2x16float g.posOpacity1).2

/-- `world_to_view = camera.view * vec4(position, 1)` (line 189). -/
def worldToView (cam : CameraUniforms F) (p : Vec3 F) : Vec4 F :=
  Mat4.mulVec cam.view ⟨p.x, p.y, p.z, 1⟩

/-- `view_to_clip = camera.proj * world_to_view` (line 190). -/
def viewToClip (cam : CameraUniforms F) (p : Vec3 F) : Vec4 F :=
  Mat4.mulVec cam.proj (worldToView cam p)

/-- `gaussian_ndc = view_to_clip.xyz / view_to_clip.w` (line 195). -/
def ndcOf (v : Vec4 F) : Vec3 F := ⟨v.x / v.w, v.y / v.w, v.z / v.w⟩

/-- The 2D covariance of a Gaussian as computed by `count_main`
(lines 205-207): `covariance2D(covariance3D(q, exp scale), world_to_view,
focal, viewport, view)`. -/
def cov2D (ops : WgslOps F) (cam : CameraUniforms F) (settings : RenderSettings F)
    (g : Gaussian) : Vec3 F :=
  covariance2D (covariance3D (gaussQuat ops g) (gaussScaleExp ops g))
    (worldToView cam (gaussPos ops g)) cam.focal (settings.viewportX, settings.viewportY)
    cam.view

/-- WGSL `normalize` via `sqrt` of the dot product. -/
def normalize3 (ops : WgslOps F) (v : Vec3 F) : Vec3 F :=
  let len := ops.sqrt (Vec3.dot v v)
  ⟨v.x / len, v.y / len, v.z / len⟩

/-- `to_f16_precision`: pack/unpack round trip (lines 34-36). -/
def toF16Precision (ops : WgslOps F) (v : F × F) : F × F :=
  ops.unpack2x16float (ops.pack2x16float v)

/-- `clamp_finite(v, limit)` (lines 38-41). -/
def clampFinite (v : F × F) (limit : F) : F × F :=
  (min limit (max (-limit) v.1), min limit (max (-limit) v.2))

/-- Everything `count_main` writes for a non-culled Gaussian: the six packed
splat words, the ordered depth, and `tile_counts[idx]`. -/
structure CountEmit where
  splatPos : ℕ
  splatRadius : ℕ
  conicXY : ℕ
  conicZ : ℕ
  colorRG : ℕ
  colorBA : ℕ
  depth : ℕ
  numTiles : ℕ

/-- Thread body of `count_main` (`tiled-forward.wgsl`, lines 162-294) for
Gaussian `idx`; `none` means the thread returned early (every cull path),
leaving `tile_counts[idx] = 0` and writing neither splat nor depth nor the
visibility increment.  Tile width/height are the 16×16 defaults. -/
def countMain (ops : WgslOps F) (cam : CameraUniforms F) (settings : RenderSettings F)
    (tileInfo : TileInfo) (gaussians : List Gaussian) (shBuffer : List ℕ)
    (idx : ℕ) : Option CountEmit :=
  let g := gaussians.getD idx default
  let opacitySigmoid := sigmoid ops (gaussOpacityRaw ops g)
  let w2v := worldToView cam (gaussPos ops g)
  let clip := viewToClip cam (gaussPos ops g)
  if clip.w = 0 then none
  else
    let ndc := ndcOf clip
    if ndc.x < -(12 / 10) ∨ (12 / 10 : F) < ndc.x ∨ ndc.y < -(12 / 10) ∨
        (12 / 10 : F) < ndc.y ∨ ndc.z < 0 ∨ (1 : F) < ndc.z then none
    else
      let c2d := cov2D ops cam settings g
      if c2d.x * c2d.z - c2d.y * c2d.y ≤ 0 then none
      else
        let det := c2d.x * c2d.z - c2d.y * c2d.y
        let detInv := 1 / det
        let conic : Vec3 F := ⟨c2d.z * detInv, -c2d.y * detInv, c2d.x * detInv⟩
        let disc := conic.y * conic.y - conic.x * conic.z
        if conic.x ≤ 0 ∨ conic.z ≤ 0 ∨ 0 ≤ disc then none
        else
          let t := 2 * ops.log (opacitySigmoid * 128)
          if t ≤ 0 then none
          else
            let cap := if 0 < settings.maxSplatRadiusPx then settings.maxSplatRadiusPx
              else 1000000000
            let xExtentCap := min (ops.sqrt (t * conic.z / (-disc))) cap
            let yExtentCap := min (ops.sqrt (t * conic.x / (-disc))) cap
            let viewport : F × F := (settings.viewportX, settings.viewportY)
            let ndcStore := toF16Precision ops (clampFinite (ndc.x, ndc.y) 60000)
            let pixelCenter : F × F :=
              ((ndcStore.1 * (1 / 2) + 1 / 2) * viewport.1,
               (ndcStore.2 * (-(1 / 2)) + 1 / 2) * viewport.2)
            let extentsF16 := toF16Precision ops (xExtentCap, yExtentCap)
            let bboxMinRaw : F × F :=
              (pixelCenter.1 - extentsF16.1 - 2, pixelCenter.2 - extentsF16.2 - 2)
            let bboxMaxRaw : F × F :=
              (pixelCenter.1 + extentsF16.1 + 2, pixelCenter.2 + extentsF16.2 + 2)
            if bboxMaxRaw.1 < 0 ∨ bboxMaxRaw.2 < 0 ∨ viewport.1 ≤ bboxMinRaw.1 ∨
                viewport.2 ≤ bboxMinRaw.2 then none
            else
              let bboxMin : F × F := (max bboxMinRaw.1 0, max bboxMinRaw.2 0)
              let bboxMax : F × F :=
                (min bboxMaxRaw.1 (viewport.1 - 1), min bboxMaxRaw.2 (viewport.2 - 1))
              if bboxMax.1 < bboxMin.1 ∨ bboxMax.2 < bboxMin.2 then none
              else
                let cameraWorldPos : Vec3 F :=
                  ⟨cam.viewInv.c3.x, cam.viewInv.c3.y, cam.viewInv.c3.z⟩
                let colorDirection := normalize3 ops (gaussPos ops g - cameraWorldPos)
                let color := computeColorFromSH ops shBuffer colorDirection idx
                  (ops.toU32 settings.shDeg)
                let tileMinX := ops.toU32 bboxMin.1 / 16
                let tileMinY := ops.toU32 bboxMin.2 / 16
                let tileMaxX := min (ops.toU32 bboxMax.1 / 16) (tileInfo.numTilesX - 1)
                let tileMaxY := min (ops.toU32 bboxMax.2 / 16) (tileInfo.numTilesY - 1)
                let numTiles := (tileMaxX - tileMinX + 1) * (tileMaxY - tileMinY + 1)
                if 2048 < numTiles then none
                else some
                  { splatPos := ops.pack2x16float ndcStore,
                    splatRadius := ops.pack2x16float (xExtentCap, yExtentCap),
                    conicXY := ops.pack2x16float (conic.x, conic.y),
                    conicZ := ops.pack2x16float (conic.z, 0),
                    colorRG := ops.pack2x16float
                      (min 1 (max 0 color.x), min 1 (max 0 color.y)),
                    colorBA := ops.pack2x16float
                      (min 1 (max 0 color.z), min 1 (max 0 opacitySigmoid)),
                    depth := floatToOrderedUint (ops.bitcastToU32 w2v.z),
                    numTiles := numTiles }

/-- `tile_counts` after the `count_main` dispatch: `0` for every culled
Gaussian (written at line 169 before any early return), the tile count
otherwise (line 289). -/
def countPassTileCounts (ops : WgslOps F) (cam : CameraUniforms F)
    (settings : RenderSettings F) (tileInfo : TileInfo) (gaussians : List Gaussian)
    (shBuffer : List ℕ) : List ℕ :=
  (List.range gaussians.length).map fun idx =>
    match countMain ops cam settings tileInfo gaussians shBuffer idx with
    | none => 0
    | some e => e.numTiles

/-- The splat buffer after the dispatch: written only by non-culled threads
(fresh-buffer view: `none` at unwritten slots). -/
def countPassSplats (ops : WgslOps F) (cam : CameraUniforms F)
    (settings : RenderSettings F) (tileInfo : TileInfo) (gaussians : List Gaussian)
    (shBuffer : List ℕ) : ℕ → Option CountEmit :=
  fun idx =>
    if idx < gaussians.length then
      countMain ops cam settings tileInfo gaussians shBuffer idx
    else none

/-- `pipeline_stats.visible_gaussians` after the dispatch: one atomic
increment per non-culled thread (line 292). -/
def countPassVisible (ops : WgslOps F) (cam : CameraUniforms F)
    (settings : RenderSettings F) (tileInfo : TileInfo) (gaussians : List Gaussian)
    (shBuffer : List ℕ) : ℕ :=
  ((List.range gaussians.length).filter fun idx =>
    (countMain ops cam settings tileInfo gaussians shBuffer idx).isSome).length

/-- The cull disjunction of claim C8, stated on the quantities `count_main`
computes: zero clip-space `w`, `|ndc.x| > 1.2`, `|ndc.y| > 1.2`,
`ndc.z ∉ [0,1]`, or non-positive 2D covariance determinant. -/
def claimedCull (ops : WgslOps F) (cam : CameraUniforms F)
    (settings : RenderSettings F) (gaussians : List Gaussian) (idx : ℕ) : Prop :=
  let g := gaussians.getD idx default
  let clip := viewToClip cam (gaussPos ops g)
  let ndc := ndcOf clip
  let c2d := cov2D ops cam settings g
  clip.w = 0 ∨ ndc.x < -(12 / 10) ∨ (12 / 10 : F) < ndc.x ∨ ndc.y < -(12 / 10) ∨
    (12 / 10 : F) < ndc.y ∨ ndc.z < 0 ∨ (1 : F) < ndc.z ∨
    c2d.x * c2d.z - c2d.y * c2d.y ≤ 0

end TiledForward

namespace Vec4

variable {F : Type} [Field F]

@[simp] theorem add_x (a b : Vec4 F) : (a + b).x = a.x + b.x := rfl

@[simp] theorem add_y (a b : Vec4 F) : (a + b).y = a.y + b.y := rfl

@[simp] theorem add_z (a b : Vec4 F) : (a + b).z = a.z + b.z := rfl

@[simp] theorem add_w (a b : Vec4 F) : (a + b).w = a.w + b.w := rfl

@[simp] theorem smul_x (s : F) (a : Vec4 F) : (s • a).x = s * a.x := rfl

@[simp] theorem smul_y (s : F) (a : Vec4 F) : (s • a).y = s * a.y := rfl

@[simp] theorem smul_z (s : F) (a : Vec4 F) : (s • a).z = s * a.z := rfl

@[simp] theorem smul_w (s : F) (a : Vec4 F) : (s • a).w = s * a.w := rfl

end Vec4

theorem countMain_eq_none_of_claimedCull {F : Type} [LinearOrderedField F]
    (ops : WgslOps F) (cam : TiledForward.CameraUniforms F)
    (settings : TiledForward.RenderSettings F) (tileInfo : TiledForward.TileInfo)
    (gaussians : List Gaussian) (shBuffer : List ℕ) (idx : ℕ)
    (h : TiledForward.claimedCull ops cam settings gaussians idx) :
    TiledForward.countMain ops cam settings tileInfo gaussians shBuffer idx = none := by
  unfold TiledForward.claimedCull at h
  simp only [TiledForward.countMain]
  set g := gaussians.getD idx default with hgdef
  set clip := TiledForward.viewToClip cam (TiledForward.gaussPos ops g) with hclipdef
  set ndc := TiledForward.ndcOf clip with hndcdef
  set c2d := TiledForward.cov2D ops cam settings g with hc2ddef
  by_cases h1 : clip.w = 0
  · rw [if_pos h1]
  · rw [if_neg h1]
    by_cases h2 : ndc.x < -(12 / 10) ∨ (12 / 10 : F) < ndc.x ∨ ndc.y < -(12 / 10) ∨
        (12 / 10 : F) < ndc.y ∨ ndc.z < 0 ∨ (1 : F) < ndc.z
    · rw [if_pos h2]
    · rw [if_neg h2]
      by_cases h3 : c2d.x * c2d.z - c2d.y * c2d.y ≤ 0
      · rw [if_pos h3]
      · exfalso
        rcases h with h | h | h | h | h | h | h | h
        · exact h1 h
        · exact h2 (Or.inl h)
        · exact h2 (Or.inr (Or.inl h))
        · exact h2 (Or.inr (Or.inr (Or.inl h)))
        · exact h2 (Or.inr (Or.inr (Or.inr (Or.inl h))))
        · exact h2 (Or.inr (Or.inr (Or.inr (Or.inr (Or.inl h)))))
        · exact h2 (Or.inr (Or.inr (Or.inr (Or.inr (Or.inr h)))))
        · exact h3 h

/-- C8: a Gaussian whose projection satisfies any of the claim's cull
conditions (clip-space `w = 0`, `|ndc.x| > 1.2`, `|ndc.y| > 1.2`,
`ndc.z ∉ [0,1]`, or non-positive 2D covariance determinant) causes
`count_main` to return early: no splat is written, `tile_counts[idx]` stays
at the 0 written on entry, and the `visible_gaussians` counter is not
incremented; consequently a scene in which every Gaussian is culled ends the
pass with `visible_gaussians = 0`. -/
theorem forward_cull_emits_nothing {F : Type} [LinearOrderedField F]
    (ops : WgslOps F) (cam : TiledForward.CameraUniforms F)
    (settings : TiledForward.RenderSettings F) (tileInfo : TiledForward.TileInfo)
    (gaussians : List Gaussian) (shBuffer : List ℕ) :
    (∀ idx, TiledForward.claimedCull ops cam settings gaussians idx →
      TiledForward.countMain ops cam settings tileInfo gaussians shBuffer idx = none ∧
      (TiledForward.countPassTileCounts ops cam settings tileInfo gaussians
        shBuffer).getD idx 0 = 0 ∧
      TiledForward.countPassSplats ops cam settings tileInfo gaussians shBuffer idx =
        none) ∧
    ((∀ idx, idx < gaussians.length →
        TiledForward.claimedCull ops cam settings gaussians idx) →
      TiledForward.countPassVisible ops cam settings tileInfo gaussians shBuffer = 0) := by
  have hnone := countMain_eq_none_of_claimedCull ops cam settings tileInfo gaussians shBuffer
  constructor
  · intro idx h
    refine ⟨hnone idx h, ?_, ?_⟩
    · unfold TiledForward.countPassTileCounts
      by_cases hidx : idx < gaussians.length
      · have hlen : idx < ((List.range gaussians.length).map fun i =>
            match TiledForward.countMain ops cam settings tileInfo gaussians shBuffer i with
            | none => 0
            | some e => e.numTiles).length := by
          simpa using hidx
        rw [List.getD_eq_getElem _ _ hlen]
        simp [hnone idx h]
      · rw [List.getD_eq_getElem?_getD,
          List.getElem?_eq_none (by simpa using not_lt.mp hidx)]
        rfl
    · unfold TiledForward.countPassSplats
      by_cases hidx : idx < gaussians.length
      · rw [if_pos hidx]
        exact hnone idx h
      · rw [if_neg hidx]
  · intro hall
    unfold TiledForward.countPassVisible
    rw [List.length_eq_zero, List.filter_eq_nil]
    intro a ha
    have halt : a < gaussians.length := List.mem_range.mp ha
    simp [hnone a (hall a halt)]

/-- All-zero camera used by the C8 witness (every Gaussian projects to
`w = 0` and is culled). -/
def camQ : TiledForward.CameraUniforms ℚ :=
  { view := ⟨⟨0, 0, 0, 0⟩, ⟨0, 0, 0, 0⟩, ⟨0, 0, 0, 0⟩, ⟨0, 0, 0, 0⟩⟩,
    viewInv := ⟨⟨0, 0, 0, 0⟩, ⟨0, 0, 0, 0⟩, ⟨0, 0, 0, 0⟩, ⟨0, 0, 0, 0⟩⟩,
    proj := ⟨⟨0, 0, 0, 0⟩, ⟨0, 0, 0, 0⟩, ⟨0, 0, 0, 0⟩, ⟨0, 0, 0, 0⟩⟩,
    projInv := ⟨⟨0, 0, 0, 0⟩, ⟨0, 0, 0, 0⟩, ⟨0, 0, 0, 0⟩, ⟨0, 0, 0, 0⟩⟩,
    viewport := (4, 4), focal := (1, 1) }

/-- Render settings for the C8 witness. -/
def settingsQ : TiledForward.RenderSettings ℚ :=
  { gaussianScaling := 1, shDeg := 0, viewportX := 4, viewportY := 4,
    pointSizePx := 1, gaussianMode := 1, maxSplatRadiusPx := 0 }

/-- Tile info for the C8 witness. -/
def tileInfoQ : TiledForward.TileInfo :=
  { numTilesX := 1, numTilesY := 1, totalTiles := 1, maxTileEntries := 0 }

/-- Witness for `forward_cull_emits_nothing`: one Gaussian under the all-zero
camera is culled by `w = 0`, and the pass ends with `visible_gaussians = 0`. -/
theorem forward_cull_emits_nothing_witness :
    TiledForward.claimedCull opsQ camQ settingsQ [default] 0 ∧
      TiledForward.countMain opsQ camQ settingsQ tileInfoQ [default] [] 0 = none ∧
      TiledForward.countPassVisible opsQ camQ settingsQ tileInfoQ [default] [] = 0 := by
  have hw : (TiledForward.viewToClip camQ
      (TiledForward.gaussPos opsQ (([default] : List Gaussian).getD 0 default))).w = 0 := by
    simp [TiledForward.viewToClip, TiledForward.worldToView, Mat4.mulVec, camQ]
  have hcull : TiledForward.claimedCull opsQ camQ settingsQ [default] 0 := Or.inl hw
  have h := forward_cull_emits_nothing opsQ camQ settingsQ tileInfoQ [default] []
  refine ⟨hcull, (h.1 0 hcull).1, h.2 ?_⟩
  intro idx hidx
  have hz : idx = 0 := by simpa using hidx
  subst hz
  exact hcull

/-!
## Three-phase GPU exclusive prefix scan (prefix.ts / prefix_sum.wgsl)

Embedding of the scanner. Buffers are `ℕ → ℕ` holding u32 values
(kept `< U32.M`; every u32 addition is taken `% U32.M`). The WGSL loops in
`blelloch_scan` are barrier-separated levels; within one level every thread
`lid < d` writes `shared_data[bi_idx]` (and in the down-sweep also
`shared_data[ai_idx]`) where the touched indices of distinct threads are
pairwise distinct and no thread reads an index another thread writes, so a
level is a pointwise function of the previous shared-memory state:
index `i` is some thread's `bi_idx = offset*(2*lid+2)-1` exactly when
`(i+1) % (2*offset) = 0` and `i+1 ≤ 2*offset*d` (then `ai_idx = i - offset`),
and some thread's `ai_idx` exactly when `(i+1+offset) % (2*offset) = 0` and
`i+1+offset ≤ 2*offset*d`. The `for` loops driving the levels are modeled
with an explicit fuel argument (`2*n+1` is more than the `log₂` many
iterations the source performs, so the fuel-exhausted branch is never hit).
-/

namespace PScan

/-- WORKGROUP_SIZE (prefix.ts line 17, and the wgsl override constant). -/
def WORKGROUP_SIZE : ℕ := 256

/-- ELEMENTS_PER_BLOCK = WORKGROUP_SIZE * 2 (512 elements per workgroup). -/
def ELEMENTS_PER_BLOCK : ℕ := WORKGROUP_SIZE * 2

/-- BLOCKS_PER_THREAD (phase 2 processes this many blocks per thread). -/
def BLOCKS_PER_THREAD : ℕ := 32

/-- MAX_BLOCKS = WORKGROUP_SIZE * BLOCKS_PER_THREAD (4096 blocks max,
also the size of phase 2's `block_shared` array). -/
def MAX_BLOCKS : ℕ := WORKGROUP_SIZE * BLOCKS_PER_THREAD

/-- MAX_ELEMENTS = MAX_BLOCKS * ELEMENTS_PER_BLOCK (PREFIX_CONSTANTS). -/
def MAX_ELEMENTS : ℕ := MAX_BLOCKS * ELEMENTS_PER_BLOCK

/-- One barrier-separated iteration of the up-sweep loop of `blelloch_scan`:
thread `lid < d` does `shared_data[bi_idx] += shared_data[ai_idx]` when
`bi_idx < 2*n`, with `bi_idx = offset*(2*lid+2)-1`, `ai_idx = bi_idx - offset`. -/
def upsweepLevel (offset d n : ℕ) (a : ℕ → ℕ) : ℕ → ℕ := fun i =>
  if (i + 1) % (2 * offset) = 0 ∧ i + 1 ≤ 2 * offset * d ∧ i < 2 * n then
    (a i + a (i - offset)) % U32.M
  else a i

/-- The up-sweep `for (var d = n; d > 0u; d >>= 1u)` loop with `offset`
starting at `1` and doubling; returns the final state and final `offset`. -/
def upsweepGo (n : ℕ) : ℕ → ℕ → ℕ → (ℕ → ℕ) → (ℕ → ℕ) × ℕ
  | 0, offset, _, a => (a, offset)
  | fuel + 1, offset, d, a =>
    if d = 0 then (a, offset)
    else upsweepGo n fuel (2 * offset) (d / 2) (upsweepLevel offset d n a)

/-- One barrier-separated iteration of the down-sweep loop: thread `lid < d`
(when `bi_idx < 2*n`) swaps `shared_data[ai_idx]` into `shared_data[bi_idx]`
accumulating: `t = a[ai]; a[ai] = a[bi]; a[bi] += t` on old values. -/
def downsweepLevel (offset d n : ℕ) (a : ℕ → ℕ) : ℕ → ℕ := fun i =>
  if (i + 1) % (2 * offset) = 0 ∧ i + 1 ≤ 2 * offset * d ∧ i < 2 * n then
    (a i + a (i - offset)) % U32.M
  else if (i + 1 + offset) % (2 * offset) = 0 ∧ i + 1 + offset ≤ 2 * offset * d ∧
      i + offset < 2 * n then
    a (i + offset)
  else a i

/-- The down-sweep `for (var d = 1u; d < 2u*n; d <<= 1u)` loop; `offset` is
halved at the top of each iteration before the level runs. -/
def downsweepGo (n : ℕ) : ℕ → ℕ → ℕ → (ℕ → ℕ) → (ℕ → ℕ)
  | 0, _, _, a => a
  | fuel + 1, d, offset, a =>
    if d < 2 * n then
      downsweepGo n fuel (2 * d) (offset / 2) (downsweepLevel (offset / 2) d n a)
    else a

/-- blelloch_scan(lid, n): up-sweep, clear `shared_data[2*n-1]`, down-sweep.
The down-sweep starts from the `offset` value the up-sweep loop left behind. -/
def blelloch_scan (n : ℕ) (a : ℕ → ℕ) : ℕ → ℕ :=
  let up := upsweepGo n (2 * n + 1) 1 n a
  downsweepGo n (2 * n + 1) 1 up.2 (fun i => if i = 2 * n - 1 then 0 else up.1 i)

/-- Sum of `x` over the index interval `[a, b)`. -/
def sumRange (x : ℕ → ℕ) (a b : ℕ) : ℕ := ∑ j ∈ Finset.Ico a b, x j

/-- Up-sweep invariant after the iterations with `offset = 1, 2, …, 2^(k-1)`:
cell `i` holds the (wrapped) sum of the segment of length `gcd(2^k, i+1)`
ending at `i`. -/
def uinv (K : ℕ) (x : ℕ → ℕ) (k : ℕ) (a : ℕ → ℕ) : Prop :=
  ∀ i, i < 2 ^ (K + 1) →
    a i = sumRange x (i + 1 - Nat.gcd (2 ^ k) (i + 1)) (i + 1) % U32.M

/-- Down-sweep invariant at segment size `L`: every cell `i` at a segment
boundary (`L ∣ i+1`) holds the wrapped prefix sum up to its segment's start;
all other cells still hold their up-sweep values. -/
def dinv (K : ℕ) (x : ℕ → ℕ) (L : ℕ) (a : ℕ → ℕ) : Prop :=
  ∀ i, i < 2 ^ (K + 1) →
    a i = if (i + 1) % L = 0 then sumRange x 0 (i + 1 - L) % U32.M
      else sumRange x (i + 1 - Nat.gcd (2 ^ (K + 1)) (i + 1)) (i + 1) % U32.M

theorem sumRange_consec (x : ℕ → ℕ) {a b c : ℕ} (hab : a ≤ b) (hbc : b ≤ c) :
    sumRange x a b + sumRange x b c = sumRange x a c :=
  Finset.sum_Ico_consecutive _ hab hbc

theorem sumRange_single (x : ℕ → ℕ) (a : ℕ) : sumRange x a (a + 1) = x a := by
  simp [sumRange, Finset.sum_Ico_succ_top]

theorem gcd_two_pow_succ_of_not_dvd (k m : ℕ) (h : ¬ 2 ^ (k + 1) ∣ m) :
    Nat.gcd (2 ^ (k + 1)) m = Nat.gcd (2 ^ k) m := by
  apply Nat.dvd_antisymm
  · have hg : Nat.gcd (2 ^ (k + 1)) m ∣ 2 ^ (k + 1) := Nat.gcd_dvd_left _ _
    obtain ⟨t, ht, hgt⟩ := (Nat.dvd_prime_pow Nat.prime_two).mp hg
    have htk : t ≤ k := by
      by_contra hgtk
      have hteq : t = k + 1 := by omega
      apply h
      rw [← hteq, ← hgt]
      exact Nat.gcd_dvd_right _ _
    refine Nat.dvd_gcd ?_ (Nat.gcd_dvd_right _ _)
    rw [hgt]
    exact pow_dvd_pow 2 htk
  · exact Nat.dvd_gcd ((Nat.gcd_dvd_left _ _).trans (pow_dvd_pow 2 (Nat.le_succ k)))
      (Nat.gcd_dvd_right _ _)

theorem gcd_two_pow_eq (t s m : ℕ) (hts : t ≤ s) (hd : 2 ^ t ∣ m)
    (hnd : ¬ 2 ^ (t + 1) ∣ m) : Nat.gcd (2 ^ s) m = 2 ^ t := by
  induction s with
  | zero =>
    have ht0 : t = 0 := by omega
    subst ht0
    simpa using Nat.gcd_one_left m
  | succ s ih =>
    rcases Nat.eq_or_lt_of_le hts with heq | hlt
    · rw [← heq]
      exact Nat.gcd_eq_left hd
    · have hs : t ≤ s := by omega
      rw [gcd_two_pow_succ_of_not_dvd s m, ih hs]
      intro hdd
      exact hnd ((pow_dvd_pow 2 (by omega)).trans hdd)

end PScan

namespace PScan

theorem upsweepLevel_uinv (K k : ℕ) (hk : k ≤ K) (x a : ℕ → ℕ) (ha : uinv K x k a) :
    uinv K x (k + 1) (upsweepLevel (2 ^ k) (2 ^ (K - k)) (2 ^ K) a) := by
  intro i hi
  have hpk : (0:ℕ) < 2 ^ k := Nat.pow_pos (by norm_num)
  have h2o : 2 * 2 ^ k = 2 ^ (k + 1) := by rw [pow_succ]; ring
  have hprod : 2 * 2 ^ k * 2 ^ (K - k) = 2 ^ (K + 1) := by
    rw [mul_assoc, ← pow_add]
    have hkk : k + (K - k) = K := by omega
    rw [hkk, pow_succ]; ring
  have hN : 2 * 2 ^ K = 2 ^ (K + 1) := by rw [pow_succ]; ring
  simp only [upsweepLevel]
  by_cases hdvd : (i + 1) % 2 ^ (k + 1) = 0
  · have hcond : (i + 1) % (2 * 2 ^ k) = 0 ∧ i + 1 ≤ 2 * 2 ^ k * 2 ^ (K - k) ∧
        i < 2 * 2 ^ K := by
      refine ⟨by rw [h2o]; exact hdvd, by rw [hprod]; omega, by rw [hN]; omega⟩
    rw [if_pos hcond]
    have hddvd : 2 ^ (k + 1) ∣ i + 1 := Nat.dvd_of_mod_eq_zero hdvd
    have hge : 2 ^ (k + 1) ≤ i + 1 := Nat.le_of_dvd (by omega) hddvd
    have hdk : (2:ℕ) ^ k ∣ i + 1 := (pow_dvd_pow 2 (Nat.le_succ k)).trans hddvd
    have hdk' : (2:ℕ) ^ k ∣ i + 1 - 2 ^ k := Nat.dvd_sub' hdk dvd_rfl
    have hg1 : Nat.gcd (2 ^ (k + 1)) (i + 1) = 2 ^ (k + 1) := Nat.gcd_eq_left hddvd
    have hgk : Nat.gcd (2 ^ k) (i + 1) = 2 ^ k := Nat.gcd_eq_left hdk
    have hsub : i - 2 ^ k + 1 = i + 1 - 2 ^ k := by omega
    have hgk' : Nat.gcd (2 ^ k) (i - 2 ^ k + 1) = 2 ^ k := by
      rw [hsub]; exact Nat.gcd_eq_left hdk'
    rw [ha i hi, ha (i - 2 ^ k) (by omega), hgk, hgk', hg1, hsub]
    have hb : i + 1 - 2 ^ k - 2 ^ k = i + 1 - 2 ^ (k + 1) := by omega
    rw [hb, ← Nat.add_mod]
    congr 1
    rw [Nat.add_comm]
    exact sumRange_consec x (by omega) (by omega)
  · have hcond : ¬((i + 1) % (2 * 2 ^ k) = 0 ∧ i + 1 ≤ 2 * 2 ^ k * 2 ^ (K - k) ∧
        i < 2 * 2 ^ K) := by
      intro hc
      exact hdvd (by rw [← h2o]; exact hc.1)
    rw [if_neg hcond, ha i hi,
      gcd_two_pow_succ_of_not_dvd k (i + 1)
        (fun hd => hdvd (Nat.mod_eq_zero_of_dvd hd))]

theorem upsweepGo_uinv (K : ℕ) (x : ℕ → ℕ) :
    ∀ r k fuel a, r + k = K + 1 → r < fuel → uinv K x k a →
      uinv K x (K + 1) (upsweepGo (2 ^ K) fuel (2 ^ k) (2 ^ r / 2) a).1 ∧
      (upsweepGo (2 ^ K) fuel (2 ^ k) (2 ^ r / 2) a).2 = 2 ^ (K + 1) := by
  intro r
  induction r with
  | zero =>
    intro k fuel a hrk hf ha
    obtain ⟨f, rfl⟩ : ∃ f, fuel = f + 1 := ⟨fuel - 1, by omega⟩
    have hk1 : k = K + 1 := by omega
    subst hk1
    simp only [upsweepGo, pow_zero]
    rw [if_pos (by norm_num)]
    exact ⟨ha, rfl⟩
  | succ r ih =>
    intro k fuel a hrk hf ha
    obtain ⟨f, rfl⟩ : ∃ f, fuel = f + 1 := ⟨fuel - 1, by omega⟩
    have hd : 2 ^ (r + 1) / 2 = 2 ^ r := by rw [pow_succ]; omega
    have hdne : (2:ℕ) ^ r ≠ 0 := by positivity
    have h2k : 2 * 2 ^ k = 2 ^ (k + 1) := by rw [pow_succ]; ring
    simp only [upsweepGo]
    rw [hd, if_neg hdne, h2k]
    have hr : r = K - k := by omega
    have hstep : uinv K x (k + 1) (upsweepLevel (2 ^ k) (2 ^ r) (2 ^ K) a) := by
      rw [hr]
      exact upsweepLevel_uinv K k (by omega) x a ha
    exact ih (k + 1) f _ (by omega) (by omega) hstep
end PScan

namespace PScan

theorem downsweepLevel_dinv (K j : ℕ) (hj : j ≤ K) (x a : ℕ → ℕ)
    (ha : dinv K x (2 ^ (K + 1 - j)) a) :
    dinv K x (2 ^ (K - j)) (downsweepLevel (2 ^ (K - j)) (2 ^ j) (2 ^ K) a) := by
  intro i hi
  have ho : (0:ℕ) < 2 ^ (K - j) := Nat.pow_pos (by norm_num)
  have hL : 2 ^ (K + 1 - j) = 2 * 2 ^ (K - j) := by
    have he : K + 1 - j = (K - j) + 1 := by omega
    rw [he, pow_succ]; ring
  have hNo : 2 * 2 ^ (K - j) * 2 ^ j = 2 ^ (K + 1) := by
    rw [mul_assoc, ← pow_add]
    have he : K - j + j = K := by omega
    rw [he, pow_succ]; ring
  have hN : 2 * 2 ^ K = 2 ^ (K + 1) := by rw [pow_succ]; ring
  have hdvdN : (2 * 2 ^ (K - j)) ∣ 2 ^ (K + 1) := by
    rw [← hL]; exact pow_dvd_pow 2 (by omega)
  set o : ℕ := 2 ^ (K - j) with hodef
  simp only [downsweepLevel]
  by_cases h1 : (i + 1) % (2 * o) = 0
  · -- `i` is a bi index: gets P(start) + (segment below), i.e. P of the
    -- right half's start
    have hd1 : 2 * o ∣ i + 1 := Nat.dvd_of_mod_eq_zero h1
    have hge : 2 * o ≤ i + 1 := Nat.le_of_dvd (by omega) hd1
    rw [if_pos ⟨h1, by rw [hNo]; omega, by rw [hN]; omega⟩]
    have hai : a i = sumRange x 0 (i + 1 - 2 * o) % U32.M := by
      have h := ha i hi
      rw [hL] at h
      rw [h, if_pos h1]
    obtain ⟨q, hq⟩ := hd1
    have hq1 : 1 ≤ q := by
      rcases Nat.eq_zero_or_pos q with h0 | h0
      · rw [h0, Nat.mul_zero] at hq; omega
      · exact h0
    have hq' : i + 1 - o = 2 * o * (q - 1) + o := by
      rcases q with _ | q'
      · omega
      · have hms : 2 * o * (q' + 1) = 2 * o * q' + 2 * o := by ring
        rw [hms] at hq
        simp only [Nat.add_sub_cancel]
        omega
    have hmod : (i + 1 - o) % (2 * o) = o := by
      rw [hq', Nat.mul_add_mod]
      exact Nat.mod_eq_of_lt (by omega)
    have hsub : i - o + 1 = i + 1 - o := by omega
    have hane : (i - o + 1) % (2 * o) ≠ 0 := by rw [hsub, hmod]; omega
    have hgcd : Nat.gcd (2 ^ (K + 1)) (i - o + 1) = o := by
      rw [hsub, hodef]
      apply gcd_two_pow_eq (K - j) (K + 1) _ (by omega)
      · exact ⟨2 * (q - 1) + 1, by rw [← hodef, hq']; ring⟩
      · intro hdd
        have h2 : (2:ℕ) ^ (K - j + 1) = 2 * o := by rw [pow_succ, hodef]; ring
        rw [h2, ← hodef] at hdd
        have hcontra := Nat.mod_eq_zero_of_dvd hdd
        omega
    have haio : a (i - o) = sumRange x (i + 1 - 2 * o) (i + 1 - o) % U32.M := by
      have h := ha (i - o) (by omega)
      rw [hL] at h
      rw [h, if_neg hane, hgcd, hsub]
      have hb : i + 1 - o - o = i + 1 - 2 * o := by omega
      rw [hb]
    rw [hai, haio, ← Nat.add_mod]
    have hmo : (i + 1) % o = 0 :=
      Nat.mod_eq_zero_of_dvd ⟨2 * q, by rw [hq]; ring⟩
    rw [if_pos hmo]
    congr 1
    exact sumRange_consec x (by omega) (by omega)
  · by_cases h2 : (i + 1 + o) % (2 * o) = 0
    · -- `i` is an ai index: receives the old bi value, the prefix sum at the
      -- shared segment's start
      have hd2 : 2 * o ∣ i + 1 + o := Nat.dvd_of_mod_eq_zero h2
      have hge2 : 2 * o ≤ i + 1 + o := Nat.le_of_dvd (by omega) hd2
      have hle : i + 1 + o ≤ 2 ^ (K + 1) := by
        by_contra hgt
        push_neg at hgt
        have hdd : 2 * o ∣ i + 1 + o - 2 ^ (K + 1) := Nat.dvd_sub' hd2 hdvdN
        have hpos : 0 < i + 1 + o - 2 ^ (K + 1) := by omega
        have := Nat.le_of_dvd hpos hdd
        omega
      rw [if_neg (fun hc => h1 hc.1), if_pos ⟨h2, by rw [hNo]; omega, by rw [hN]; omega⟩]
      have hio2 : i + o < 2 ^ (K + 1) := by omega
      have h2o' : (i + o + 1) % (2 * o) = 0 := by
        have he : i + o + 1 = i + 1 + o := by ring
        rw [he]; exact h2
      have h := ha (i + o) hio2
      rw [hL] at h
      rw [h, if_pos h2o']
      have hb : i + o + 1 - 2 * o = i + 1 - o := by omega
      rw [hb]
      have hmo : (i + 1) % o = 0 := by
        have hoo : o ∣ 2 * o := ⟨2, by ring⟩
        have h' : o ∣ i + 1 + o := hoo.trans hd2
        have h'' := Nat.dvd_sub' h' (dvd_refl o)
        have he : i + 1 + o - o = i + 1 := by omega
        rw [he] at h''
        exact Nat.mod_eq_zero_of_dvd h''
      rw [if_pos hmo]
    · -- untouched cell: show no thread writes it at this level
      rw [if_neg (fun hc => h1 hc.1), if_neg (fun hc => h2 hc.1)]
      have hmo : (i + 1) % o ≠ 0 := by
        intro hmo
        obtain ⟨m, hm⟩ := Nat.dvd_of_mod_eq_zero hmo
        rcases Nat.mod_two_eq_zero_or_one m with hpar | hpar
        · apply h1
          have hm2 : m = 2 * (m / 2) := by omega
          have he : i + 1 = 2 * o * (m / 2) := by rw [hm]; nth_rewrite 1 [hm2]; ring
          rw [he, Nat.mul_mod_right]
        · apply h2
          have hm2 : m + 1 = 2 * ((m + 1) / 2) := by omega
          have he : i + 1 + o = 2 * o * ((m + 1) / 2) := by
            calc i + 1 + o = o * (m + 1) := by rw [hm]; ring
            _ = o * (2 * ((m + 1) / 2)) := by rw [← hm2]
            _ = 2 * o * ((m + 1) / 2) := by ring
          rw [he, Nat.mul_mod_right]
      have h := ha i hi
      rw [hL] at h
      rw [h, if_neg h1, if_neg hmo]
end PScan

namespace PScan

theorem downsweepGo_dinv (K : ℕ) (x : ℕ → ℕ) :
    ∀ r j fuel a, r + j = K + 1 → r < fuel → dinv K x (2 ^ r) a →
      dinv K x 1 (downsweepGo (2 ^ K) fuel (2 ^ j) (2 ^ r) a) := by
  intro r
  induction r with
  | zero =>
    intro j fuel a hrj hf ha
    obtain ⟨f, rfl⟩ : ∃ f, fuel = f + 1 := ⟨fuel - 1, by omega⟩
    have hj : j = K + 1 := by omega
    subst hj
    simp only [downsweepGo]
    rw [if_neg (by rw [pow_succ]; omega)]
    simpa using ha
  | succ r ih =>
    intro j fuel a hrj hf ha
    obtain ⟨f, rfl⟩ : ∃ f, fuel = f + 1 := ⟨fuel - 1, by omega⟩
    have hj : j ≤ K := by omega
    have hlt : 2 ^ j < 2 * 2 ^ K := by
      have h1 : (2:ℕ) ^ j ≤ 2 ^ K := Nat.pow_le_pow_right (by norm_num) hj
      have h2 : (0:ℕ) < 2 ^ K := Nat.pow_pos (by norm_num)
      omega
    have h2d : 2 * 2 ^ j = 2 ^ (j + 1) := by rw [pow_succ]; ring
    have hofs : 2 ^ (r + 1) / 2 = 2 ^ r := by rw [pow_succ]; omega
    simp only [downsweepGo]
    rw [if_pos hlt, h2d, hofs]
    have hr : r = K - j := by omega
    have hr1 : r + 1 = K + 1 - j := by omega
    rw [hr1] at ha
    have hstep := downsweepLevel_dinv K j hj x a ha
    rw [← hr] at hstep
    exact ih (j + 1) f _ (by omega) (by omega) hstep

theorem blelloch_scan_correct (K : ℕ) (x : ℕ → ℕ)
    (hx : ∀ i, i < 2 ^ (K + 1) → x i < U32.M) :
    ∀ i, i < 2 ^ (K + 1) → blelloch_scan (2 ^ K) x i = sumRange x 0 i % U32.M := by
  intro i hi
  have hflt : K + 1 < 2 * 2 ^ K + 1 := by
    have := Nat.lt_two_pow (K + 1)
    have h2 : (2:ℕ) ^ (K + 1) = 2 * 2 ^ K := by rw [pow_succ]; ring
    omega
  have harg1 : (2:ℕ) ^ 0 = 1 := pow_zero 2
  have harg2 : 2 ^ (K + 1) / 2 = 2 ^ K := by rw [pow_succ]; omega
  have h0 : uinv K x 0 x := by
    intro t ht
    rw [pow_zero, Nat.gcd_one_left]
    have he : t + 1 - 1 = t := by omega
    rw [he, sumRange_single, Nat.mod_eq_of_lt (hx t ht)]
  obtain ⟨hup, hoff⟩ := upsweepGo_uinv K x (K + 1) 0 (2 * 2 ^ K + 1) x (by omega) hflt h0
  rw [harg1, harg2] at hup hoff
  simp only [blelloch_scan]
  rw [hoff]
  set u : ℕ → ℕ := (upsweepGo (2 ^ K) (2 * 2 ^ K + 1) 1 (2 ^ K) x).1 with hudef
  set c : ℕ → ℕ := fun t => if t = 2 * 2 ^ K - 1 then 0 else u t with hcdef
  have h2N : 2 * 2 ^ K = 2 ^ (K + 1) := by rw [pow_succ]; ring
  have hc : dinv K x (2 ^ (K + 1)) c := by
    intro t ht
    simp only [hcdef]
    by_cases hlast : t = 2 * 2 ^ K - 1
    · rw [if_pos hlast]
      have ht1 : t + 1 = 2 ^ (K + 1) := by
        have h2 : (0:ℕ) < 2 ^ K := Nat.pow_pos (by norm_num)
        omega
      rw [ht1, Nat.mod_self, if_pos rfl, Nat.sub_self]
      simp [sumRange]
    · rw [if_neg hlast]
      have hne : (t + 1) % 2 ^ (K + 1) ≠ 0 := by
        intro h0'
        have hd := Nat.dvd_of_mod_eq_zero h0'
        have hle := Nat.le_of_dvd (by omega) hd
        omega
      rw [if_neg hne]
      exact hup t ht
  have hfin := downsweepGo_dinv K x (K + 1) 0 (2 * 2 ^ K + 1) c (by omega) hflt hc
  rw [harg1] at hfin
  have hval := hfin i hi
  rw [Nat.mod_one, if_pos rfl] at hval
  have he : i + 1 - 1 = i := by omega
  rw [he] at hval
  exact hval
end PScan

namespace PScan

/-- Value thread-local index `i` of block `b` loads into `shared_data[i]`
in `local_scan` (zero-padding past `info.count`); each thread loads
`ai = lid` and `bi = lid + WORKGROUP_SIZE`, covering `i = 0 … 511` once. -/
def localLoad (count : ℕ) (input : ℕ → ℕ) (b i : ℕ) : ℕ :=
  if b * ELEMENTS_PER_BLOCK + i < count then input (b * ELEMENTS_PER_BLOCK + i) else 0

/-- Value `local_scan` writes to `output[g]` (written exactly when
`g < info.count`; `g`'s block is `g / 512`, its shared-memory slot `g % 512`). -/
def local_scan_output (count : ℕ) (input : ℕ → ℕ) (g : ℕ) : ℕ :=
  blelloch_scan WORKGROUP_SIZE (localLoad count input (g / ELEMENTS_PER_BLOCK))
    (g % ELEMENTS_PER_BLOCK)

/-- The `block_total` accumulation loop run by thread 0 of block `b`
(`block_total += shared_data[i]` under the `block_start + i < info.count`
guard, u32 wrap-around addition); written to `block_sums[b]`. -/
def block_total (count : ℕ) (input : ℕ → ℕ) (b : ℕ) : ℕ :=
  (List.range ELEMENTS_PER_BLOCK).foldl
    (fun s i => if b * ELEMENTS_PER_BLOCK + i < count then
      (s + localLoad count input b i) % U32.M else s) 0

/-- MAX_BLOCKS_PHASE2 of prefix_sum.wgsl: the size of the `block_shared`
workgroup array that phase 2 scans. NOTE this is 4096 while the host-side
`MAX_BLOCKS = WORKGROUP_SIZE * BLOCKS_PER_THREAD` is 256·32 = 8192 (its
"4096 blocks max" comment is stale): the phase-2 threads address
`block_idx = lid * BLOCKS_PER_THREAD + i` up to 8191, so every access with
`block_idx ≥ 4096` goes out of the array's bounds. The model below covers the
in-bounds regime `nw ≤ 4096`, where (under WebGPU robust access with
out-of-bounds stores discarded) those accesses cannot disturb
`block_shared[0..4095]`. -/
def MAX_BLOCKS_PHASE2 : ℕ := 4096

/-- Phase 2's load of `block_shared[idx]` (each in-bounds `idx < 4096` is
loaded by exactly one thread as `idx = lid * BLOCKS_PER_THREAD + i`). -/
def blockLoad (nw : ℕ) (bs : ℕ → ℕ) (idx : ℕ) : ℕ := if idx < nw then bs idx else 0

/-- Thread 0's sequential exclusive-scan loop over `block_shared`
(`val = shared[i]; shared[i] = sum; sum += val` with u32 wrap): after `k`
iterations, the running `sum` and the shared array. -/
def scanLoop (load : ℕ → ℕ) : ℕ → ℕ × (ℕ → ℕ)
  | 0 => (0, load)
  | k + 1 =>
    let p := scanLoop load k
    ((p.1 + p.2 k) % U32.M, fun t => if t = k then p.1 else p.2 t)

/-- Value of `block_sums[b]` after the `scan_blocks` entry point: the scanned
`block_shared[b]` is written back exactly for the in-bounds slots `b < 4096`
with `b < nw`. -/
def scan_blocks (nw : ℕ) (bs : ℕ → ℕ) (b : ℕ) : ℕ :=
  if b < MAX_BLOCKS_PHASE2 ∧ b < nw then (scanLoop (blockLoad nw bs) nw).2 b else bs b

/-- Value of `output[g]` after the `add_offsets` entry point (each thread adds
its block's scanned offset to its two elements, guarded by `g < info.count`). -/
def add_offsets (count : ℕ) (bs out : ℕ → ℕ) (g : ℕ) : ℕ :=
  if g < count then (out g + bs (g / ELEMENTS_PER_BLOCK)) % U32.M else out g

/-- num_workgroups = Math.ceil(count / ELEMENTS_PER_BLOCK) (set_count). -/
def num_workgroups (count : ℕ) : ℕ := (count + ELEMENTS_PER_BLOCK - 1) / ELEMENTS_PER_BLOCK

/-- The full `scan(encoder)` pipeline: phase 1 always, phases 2 and 3 only
when `currentNumWorkgroups > 1`; yields the final content of `output[g]`. -/
def scan (count : ℕ) (input : ℕ → ℕ) : ℕ → ℕ :=
  if 1 < num_workgroups count then
    add_offsets count (scan_blocks (num_workgroups count) (block_total count input))
      (local_scan_output count input)
  else local_scan_output count input

theorem list_sum_map_range (f : ℕ → ℕ) (n : ℕ) :
    ((List.range n).map f).sum = ∑ i ∈ Finset.range n, f i := by
  induction n with
  | zero => simp
  | succ n ih =>
    rw [List.range_succ, List.map_append, List.sum_append, Finset.sum_range_succ, ih]
    simp

theorem foldl_guard_add_mod (p : ℕ → Prop) [DecidablePred p] (f : ℕ → ℕ)
    (hf : ∀ i, ¬ p i → f i = 0) :
    ∀ (l : List ℕ) (s : ℕ), s < U32.M →
      l.foldl (fun s i => if p i then (s + f i) % U32.M else s) s
        = (s + (l.map f).sum) % U32.M := by
  intro l
  induction l with
  | nil =>
    intro s hs
    simp [Nat.mod_eq_of_lt hs]
  | cons a l ih =>
    intro s hs
    simp only [List.foldl_cons, List.map_cons, List.sum_cons]
    by_cases hp : p a
    · rw [if_pos hp, ih _ (Nat.mod_lt _ (by norm_num [U32.M])), Nat.mod_add_mod]
      congr 1
      omega
    · rw [if_neg hp, ih _ hs, hf a hp, Nat.zero_add]

theorem block_total_eq (count : ℕ) (input : ℕ → ℕ) (b : ℕ) :
    block_total count input b
      = (∑ i ∈ Finset.range ELEMENTS_PER_BLOCK, localLoad count input b i) % U32.M := by
  unfold block_total
  rw [foldl_guard_add_mod (fun i => b * ELEMENTS_PER_BLOCK + i < count)
    (localLoad count input b)
    (fun i hi => by unfold localLoad; rw [if_neg hi]) _ 0 (by norm_num [U32.M])]
  rw [Nat.zero_add, list_sum_map_range]

theorem scanLoop_spec (load : ℕ → ℕ) :
    ∀ k, (scanLoop load k).1 = (∑ t ∈ Finset.range k, load t) % U32.M ∧
      ∀ b, (scanLoop load k).2 b
        = if b < k then (∑ t ∈ Finset.range b, load t) % U32.M else load b := by
  intro k
  induction k with
  | zero =>
    refine ⟨by simp [scanLoop], fun b => by simp [scanLoop]⟩
  | succ k ih =>
    obtain ⟨ih1, ih2⟩ := ih
    constructor
    · simp only [scanLoop]
      rw [ih1, ih2 k, if_neg (lt_irrefl k), Nat.mod_add_mod, Finset.sum_range_succ]
    · intro b
      simp only [scanLoop]
      by_cases hbk : b = k
      · subst hbk
        rw [if_pos rfl, if_pos (Nat.lt_succ_self b), ih1]
      · rw [if_neg hbk, ih2 b]
        by_cases hlt : b < k
        · rw [if_pos hlt, if_pos (by omega)]
        · rw [if_neg hlt, if_neg (by omega)]

theorem scan_blocks_eq (nw : ℕ) (bs : ℕ → ℕ) (hnw : nw ≤ MAX_BLOCKS_PHASE2)
    (b : ℕ) (hb : b < nw) :
    scan_blocks nw bs b = (∑ t ∈ Finset.range b, bs t) % U32.M := by
  unfold scan_blocks
  rw [if_pos ⟨by omega, hb⟩, (scanLoop_spec (blockLoad nw bs) nw).2 b, if_pos hb]
  congr 1
  refine Finset.sum_congr rfl fun t ht => ?_
  unfold blockLoad
  rw [if_pos (by have := Finset.mem_range.mp ht; omega)]

theorem sum_range_mul (f : ℕ → ℕ) (E : ℕ) :
    ∀ b, ∑ u ∈ Finset.range b, ∑ j ∈ Finset.range E, f (u * E + j)
      = ∑ j ∈ Finset.range (b * E), f j := by
  intro b
  induction b with
  | zero => simp
  | succ b ih =>
    rw [Finset.sum_range_succ, ih, Nat.succ_mul]
    have h1 : ∑ j ∈ Finset.Ico (b * E) (b * E + E), f j
        = ∑ j ∈ Finset.range E, f (b * E + j) := by
      rw [Finset.sum_Ico_eq_sum_range]
      simp
    have h2 : ∑ j ∈ Finset.range (b * E), f j + ∑ j ∈ Finset.Ico (b * E) (b * E + E), f j
        = ∑ j ∈ Finset.range (b * E + E), f j := by
      rw [Finset.range_eq_Ico]
      exact Finset.sum_Ico_consecutive f (Nat.zero_le _) (Nat.le_add_right _ _)
    rw [← h2, h1]

theorem local_scan_output_eq (count : ℕ) (input : ℕ → ℕ)
    (hin : ∀ j, j < count → input j < U32.M) (g : ℕ) :
    local_scan_output count input g
      = (∑ i ∈ Finset.range (g % ELEMENTS_PER_BLOCK),
          localLoad count input (g / ELEMENTS_PER_BLOCK) i) % U32.M := by
  unfold local_scan_output
  have hW : WORKGROUP_SIZE = 2 ^ 8 := by norm_num [WORKGROUP_SIZE]
  have hE : ELEMENTS_PER_BLOCK = 2 ^ (8 + 1) := by
    norm_num [ELEMENTS_PER_BLOCK, WORKGROUP_SIZE]
  have hload : ∀ i, i < 2 ^ (8 + 1) → localLoad count input (g / ELEMENTS_PER_BLOCK) i < U32.M := by
    intro i _
    unfold localLoad
    by_cases h : g / ELEMENTS_PER_BLOCK * ELEMENTS_PER_BLOCK + i < count
    · rw [if_pos h]; exact hin _ h
    · rw [if_neg h]; norm_num [U32.M]
  have hmlt : g % ELEMENTS_PER_BLOCK < 2 ^ (8 + 1) := by
    rw [← hE]
    exact Nat.mod_lt _ (by norm_num [ELEMENTS_PER_BLOCK, WORKGROUP_SIZE])
  have := blelloch_scan_correct 8 (localLoad count input (g / ELEMENTS_PER_BLOCK)) hload
    (g % ELEMENTS_PER_BLOCK) hmlt
  rw [hW, this]
  congr 1
  unfold sumRange
  rw [← Finset.range_eq_Ico]
end PScan

namespace PScan

theorem scan_output_mod (count : ℕ) (input : ℕ → ℕ)
    (h0 : 0 < count) (hmax : count ≤ MAX_BLOCKS_PHASE2 * ELEMENTS_PER_BLOCK)
    (hin : ∀ j, j < count → input j < U32.M) :
    ∀ i, i < count → scan count input i = (∑ j ∈ Finset.range i, input j) % U32.M := by
  intro i hi
  have hE : ELEMENTS_PER_BLOCK = 512 := by norm_num [ELEMENTS_PER_BLOCK, WORKGROUP_SIZE]
  have hMB : MAX_BLOCKS_PHASE2 = 4096 := by norm_num [MAX_BLOCKS_PHASE2]
  have hME : MAX_BLOCKS_PHASE2 * ELEMENTS_PER_BLOCK = 2097152 := by
    norm_num [MAX_BLOCKS_PHASE2, ELEMENTS_PER_BLOCK, WORKGROUP_SIZE]
  rw [hME] at hmax
  have hnw : num_workgroups count = (count + 511) / 512 := by
    rw [num_workgroups, hE]; omega
  set pad : ℕ → ℕ := fun j => if j < count then input j else 0 with hpaddef
  have hpadLoad : ∀ b r, localLoad count input b r = pad (b * 512 + r) := by
    intro b r
    unfold localLoad
    rw [hE]
  have hloc : local_scan_output count input i
      = (∑ j ∈ Finset.Ico (i / 512 * 512) i, pad j) % U32.M := by
    have h := local_scan_output_eq count input hin i
    rw [hE] at h
    rw [h]
    congr 1
    rw [Finset.sum_Ico_eq_sum_range]
    have h1 : i - i / 512 * 512 = i % 512 := by omega
    rw [h1]
    exact Finset.sum_congr rfl fun r _ => hpadLoad (i / 512) r
  have hpadinp : ∑ j ∈ Finset.range i, pad j = ∑ j ∈ Finset.range i, input j := by
    refine Finset.sum_congr rfl fun j hj => ?_
    have hj' := Finset.mem_range.mp hj
    simp only [hpaddef]
    rw [if_pos (by omega)]
  by_cases hcase : 1 < num_workgroups count
  · unfold scan
    rw [if_pos hcase]
    unfold add_offsets
    rw [if_pos hi, hE]
    have hnle : num_workgroups count ≤ MAX_BLOCKS_PHASE2 := by rw [hnw, hMB]; omega
    have hblt : i / 512 < num_workgroups count := by rw [hnw]; omega
    rw [scan_blocks_eq (num_workgroups count) (block_total count input) hnle (i / 512) hblt,
      hloc]
    have hbt2 : (∑ u ∈ Finset.range (i / 512), block_total count input u) % U32.M
        = (∑ j ∈ Finset.range (i / 512 * 512), pad j) % U32.M := by
      have h1 : ∑ u ∈ Finset.range (i / 512), block_total count input u
          = ∑ u ∈ Finset.range (i / 512),
              ((∑ r ∈ Finset.range 512, pad (u * 512 + r)) % U32.M) := by
        refine Finset.sum_congr rfl fun u _ => ?_
        rw [block_total_eq, hE]
        congr 1
      rw [h1, ← Finset.sum_nat_mod, sum_range_mul]
    rw [hbt2, ← Nat.add_mod]
    have hcons : ∑ j ∈ Finset.range (i / 512 * 512), pad j
        + ∑ j ∈ Finset.Ico (i / 512 * 512) i, pad j = ∑ j ∈ Finset.range i, pad j := by
      have h := Finset.sum_Ico_consecutive pad (Nat.zero_le (i / 512 * 512))
        (show i / 512 * 512 ≤ i by omega)
      simpa [← Finset.range_eq_Ico] using h
    rw [Nat.add_comm, hcons, hpadinp]
  · unfold scan
    rw [if_neg hcase, hloc]
    have hc512 : count ≤ 512 := by rw [hnw] at hcase; omega
    have hb0 : i / 512 = 0 := Nat.div_eq_of_lt (by omega)
    rw [hb0, Nat.zero_mul]
    rw [← Finset.range_eq_Ico, hpadinp]

end PScan

/-- C1: the claim asserts the three-phase prefix scan (`local_scan`, then
`scan_blocks` and `add_offsets` when more than one workgroup was dispatched)
is an exclusive scan for every input length `0 < count ≤ MAX_ELEMENTS`. The
scanner's constants put `MAX_ELEMENTS = MAX_BLOCKS · ELEMENTS_PER_BLOCK`
`= (256·32)·512 = 4194304`, but phase 2's `block_shared` workgroup array holds
only `MAX_BLOCKS_PHASE2 = 4096` block sums, so with more than `4096`
workgroups (`count > 4096·512 = 2097152 = MAX_ELEMENTS / 2`) the kernel
reads and writes `block_shared` out of bounds and the scanned block offsets
are no longer the claimed prefix sums. This theorem proves the claimed
property on the in-bounds half of the claimed range,
`count ≤ MAX_BLOCKS_PHASE2 · ELEMENTS_PER_BLOCK`: in u32 arithmetic
`output[i] = (Σ_{j<i} input[j]) mod 2^32` and
`(output[count-1] + input[count-1]) mod 2^32` is the total sum mod 2^32, and
when the total sum fits in a u32 these hold exactly, so `s_i = Σ_{j<i} a_j`
and `s_{count-1} + a_{count-1} = Σ_j a_j`. -/
theorem three_phase_scan_exclusive_correct (count : ℕ) (input : ℕ → ℕ)
    (h0 : 0 < count) (hmax : count ≤ PScan.MAX_BLOCKS_PHASE2 * PScan.ELEMENTS_PER_BLOCK)
    (hin : ∀ j, j < count → input j < U32.M) :
    (∀ i, i < count →
      PScan.scan count input i = (∑ j ∈ Finset.range i, input j) % U32.M) ∧
    (PScan.scan count input (count - 1) + input (count - 1)) % U32.M
      = (∑ j ∈ Finset.range count, input j) % U32.M ∧
    ((∑ j ∈ Finset.range count, input j) < U32.M →
      (∀ i, i < count → PScan.scan count input i = ∑ j ∈ Finset.range i, input j) ∧
      PScan.scan count input (count - 1) + input (count - 1)
        = ∑ j ∈ Finset.range count, input j) := by
  have hmod := PScan.scan_output_mod count input h0 hmax hin
  have hsucc : count - 1 + 1 = count := by omega
  have hsplit : ∑ j ∈ Finset.range count, input j
      = ∑ j ∈ Finset.range (count - 1), input j + input (count - 1) := by
    conv_lhs => rw [← hsucc]
    rw [Finset.sum_range_succ]
  refine ⟨hmod, ?_, ?_⟩
  · rw [hmod (count - 1) (by omega), Nat.mod_add_mod, hsplit]
  · intro htot
    have hexact : ∀ i, i < count →
        PScan.scan count input i = ∑ j ∈ Finset.range i, input j := by
      intro i hi
      rw [hmod i hi]
      apply Nat.mod_eq_of_lt
      calc ∑ j ∈ Finset.range i, input j
          ≤ ∑ j ∈ Finset.range count, input j :=
            Finset.sum_le_sum_of_subset (Finset.range_subset.mpr (by omega))
        _ < U32.M := htot
    refine ⟨hexact, ?_⟩
    rw [hexact (count - 1) (by omega), hsplit]

/-- Input array `[3,0,4,1,5,9,2,6]` for the C1 witness. -/
def inpF : ℕ → ℕ := fun i => [3, 0, 4, 1, 5, 9, 2, 6].getD i 0

/-- Witness for `three_phase_scan_exclusive_correct` at the 8-element array
`[3,0,4,1,5,9,2,6]`: the hypotheses hold, the scan output at index 5 is
`3+0+4+1+5 = 13`, and `output[7] + input[7]` recovers the total `30`. -/
theorem three_phase_scan_exclusive_correct_witness :
    ((0:ℕ) < 8 ∧ 8 ≤ PScan.MAX_BLOCKS_PHASE2 * PScan.ELEMENTS_PER_BLOCK ∧
      (∀ j, j < 8 → inpF j < U32.M)) ∧
    PScan.scan 8 inpF 5 = 13 ∧ PScan.scan 8 inpF 7 + inpF 7 = 30 := by
  have h1 : (0:ℕ) < 8 := by norm_num
  have h2 : 8 ≤ PScan.MAX_BLOCKS_PHASE2 * PScan.ELEMENTS_PER_BLOCK := by
    norm_num [PScan.MAX_BLOCKS_PHASE2, PScan.ELEMENTS_PER_BLOCK, PScan.WORKGROUP_SIZE]
  have h3 : ∀ j, j < 8 → inpF j < U32.M := by decide
  have h := three_phase_scan_exclusive_correct 8 inpF h1 h2 h3
  have htot : (∑ j ∈ Finset.range 8, inpF j) < U32.M := by decide
  obtain ⟨hall, hlast⟩ := h.2.2 htot
  norm_num at hlast
  refine ⟨⟨h1, h2, h3⟩, ?_, ?_⟩
  · rw [hall 5 (by norm_num)]
    decide
  · rw [hlast]
    decide
